import Mathlib

/-!
Verification of the AutoGenSrt batch-transcription application.

The development shallowly embeds the two algorithmic cores of the
repository:

* the transcription queue processor of `src/App.tsx`
  (`handleFilesSelect`, the `processNextItem` effect, `removeItem`,
  `handleRetry`, `reset`), modelled as a labelled transition system over
  an explicit application state;
* the subtitle machinery of `src/services/geminiService.ts`
  (`generateSubtitles` with its markdown code-fence cleanup) and of
  `src/utils/fileHelpers.ts` (`vttToSrt`), modelled as pure functions on
  `String` / `List Char`.

Conventions of the embedding:

* A `File` handle is opaque; it is represented by a `Nat`.
* `Math.random().toString(36).substring(2, 9)` id generation is an
  oracle: the generated ids are inputs of the `enqueue` transition.
* The asynchronous `generateSubtitles` call suspended inside the
  `processNextItem` effect is represented by the ghost `pending` list of
  job ids whose calls are outstanding; its eventual continuation (the
  `completed`/`error` queue update together with the `finally` clearing
  of the in-flight flag) is the `resolveCall` transition.
* The ghost field `birth` records the insertion instant of a job; no
  operation of the model reads it.  It exists only so that temporal
  statements ("earliest-inserted") can be expressed.
-/

namespace AutoGenSrt

/-! ## The queue processor (src/App.tsx) -/

/-- `QueueItem.status` values, from `src/types.ts`:
`'idle' | 'processing' | 'completed' | 'error'`. -/
inductive Status where
  | idle
  | processing
  | completed
  | error
deriving DecidableEq

/-- `QueueItem` of `src/types.ts`: `id`, opaque `file`, `status`, and the
optional `subtitles` / `error` fields.  `birth` is a ghost insertion
stamp (see the module docstring). -/
structure QueueItem where
  id : String
  file : Nat
  status : Status
  subtitles : Option String := none
  error : Option String := none
  birth : Nat := 0
deriving DecidableEq

/-- The mutable state of the `App` component: the `queue` and
`isProcessing` React states, plus the ghost `pending` list of
outstanding transcription calls and the ghost `nextBirth` counter. -/
structure AppState where
  queue : List QueueItem
  isProcessing : Bool
  pending : List String
  nextBirth : Nat
deriving DecidableEq

/-- The initial state: empty queue, not processing. -/
def init : AppState := ⟨[], false, [], 0⟩

/-- The `files.map(file => ({id, file, status: 'idle'}))` of
`handleFilesSelect`; the ids come from the random oracle, the births are
consecutive ghost stamps. -/
def mkItems : List String → List Nat → Nat → List QueueItem
  | i :: is, f :: fs, n =>
      { id := i, file := f, status := .idle, birth := n } :: mkItems is fs (n + 1)
  | _, _, _ => []

/-- `handleFilesSelect`: append the new idle items to the queue. -/
def handleFilesSelect (ids : List String) (files : List Nat) (s : AppState) : AppState :=
  let newItems := mkItems ids files s.nextBirth
  { s with queue := s.queue ++ newItems, nextBirth := s.nextBirth + newItems.length }

/-- The synchronous prefix of the `processNextItem` effect: if not
already processing and an idle item exists, claim the first idle item
(`queue.find`), mark it `processing` and start its transcription call
(recorded in `pending`). -/
def processNextItem (s : AppState) : AppState :=
  if s.isProcessing then s
  else
    match s.queue.find? (fun q => q.status == Status.idle) with
    | none => s
    | some nextItem =>
        { s with
          isProcessing := true,
          queue := s.queue.map (fun q =>
            if q.id = nextItem.id then { q with status := .processing } else q),
          pending := s.pending ++ [nextItem.id] }

/-- The continuation of an outstanding transcription call for job id `i`:
on success mark `completed` and store the subtitles, on failure mark
`error` with `error.message || 'Processing failed'`; in either case the
`finally` clause clears the in-flight flag.  The call is removed from
the ghost `pending` list. -/
def resolveCall (i : String) (outcome : Except String String) (s : AppState) : AppState :=
  let queue' :=
    match outcome with
    | .ok generatedText =>
        s.queue.map (fun q =>
          if q.id = i then { q with status := .completed, subtitles := some generatedText } else q)
    | .error msg =>
        s.queue.map (fun q =>
          if q.id = i then
            { q with status := .error,
                     error := some (if msg = "" then "Processing failed" else msg) }
          else q)
  { s with queue := queue', isProcessing := false, pending := s.pending.erase i }

/-- `removeItem`: drop every queue entry whose id is `i`. -/
def removeItem (i : String) (s : AppState) : AppState :=
  { s with queue := s.queue.filter (fun q => q.id != i) }

/-- `handleRetry`: map the entry with id `i` to
`{...q, status: 'idle', error: undefined, subtitles: undefined}`.
Note the source has no status guard. -/
def handleRetry (i : String) (s : AppState) : AppState :=
  { s with queue := s.queue.map (fun q =>
      if q.id = i then { q with status := .idle, error := none, subtitles := none } else q) }

/-- `reset` ("Clear"): empty the queue and clear the in-flight flag.
Outstanding calls (the ghost `pending` list) keep running. -/
def reset (s : AppState) : AppState :=
  { s with queue := [], isProcessing := false }

/-- One event of the single-threaded cooperative execution: a user
operation, a run of the scheduling effect, or the resumption of an
outstanding transcription call. -/
inductive Step : AppState → AppState → Prop where
  | enqueue (s : AppState) (ids : List String) (files : List Nat) :
      Step s (handleFilesSelect ids files s)
  | dispatch (s : AppState) : Step s (processNextItem s)
  | resolve (s : AppState) (i : String) (outcome : Except String String)
      (h : i ∈ s.pending) : Step s (resolveCall i outcome s)
  | retry (s : AppState) (i : String) : Step s (handleRetry i s)
  | remove (s : AppState) (i : String) : Step s (removeItem i s)
  | clear (s : AppState) : Step s (reset s)

/-- A state is reachable when some sequence of events leads to it from
the empty initial state. -/
def Reachable (s : AppState) : Prop := Relation.ReflTransGen Step init s

/-! ### Claim C4: orphaned completion updates -/

/-- Claim C4: after `removeItem i`, no queue entry carries the id `i`;
and any resolution of an outstanding call for an id that is absent from
the queue (in particular the orphaned call of a removed job) leaves the
queue completely unchanged — no entry of any other id is modified. -/
theorem claim4_orphan_update (s : AppState) (i : String)
    (outcome : Except String String) :
    (∀ j ∈ (removeItem i s).queue, j.id ≠ i) ∧
    (∀ s' : AppState, (∀ j ∈ s'.queue, j.id ≠ i) →
      (resolveCall i outcome s').queue = s'.queue) := by
  constructor
  · intro j hj
    have h := List.of_mem_filter hj
    simpa using h
  · intro s' h
    cases outcome with
    | ok t =>
        simp only [resolveCall]
        calc s'.queue.map (fun q =>
                if q.id = i then { q with status := .completed, subtitles := some t } else q)
            = s'.queue.map id := by
              apply List.map_congr_left
              intro q hq
              simp [h q hq]
          _ = s'.queue := List.map_id _
    | error m =>
        simp only [resolveCall]
        calc s'.queue.map (fun q =>
                if q.id = i then
                  { q with status := .error,
                           error := some (if m = "" then "Processing failed" else m) }
                else q)
            = s'.queue.map id := by
              apply List.map_congr_left
              intro q hq
              simp [h q hq]
          _ = s'.queue := List.map_id _

/-- Witness for C4 at a concrete state: a queue holding one job `"b"`,
resolving an orphaned call for id `"a"`. -/
theorem claim4_orphan_update_witness :
    (resolveCall "a" (Except.ok "t") (handleFilesSelect ["b"] [5] init)).queue =
      (handleFilesSelect ["b"] [5] init).queue :=
  (claim4_orphan_update (handleFilesSelect ["b"] [5] init) "a" (Except.ok "t")).2
    (handleFilesSelect ["b"] [5] init) (by decide)

/-! ### Claim C3: retry semantics -/

/-- Claim C3 counterexample: in the reachable state where job `"a"` is
`processing`, `handleRetry "a"` does *not* leave the queue unchanged
(the source has no status guard), contradicting the claimed silent
no-op on `idle`/`processing` jobs. -/
theorem claim3_retry_processing_cex :
    Reachable (processNextItem (handleFilesSelect ["a"] [0] init)) ∧
    (∃ j ∈ (processNextItem (handleFilesSelect ["a"] [0] init)).queue,
        j.id = "a" ∧ j.status = Status.processing) ∧
    (handleRetry "a" (processNextItem (handleFilesSelect ["a"] [0] init))).queue ≠
      (processNextItem (handleFilesSelect ["a"] [0] init)).queue := by
  refine ⟨?_, by decide, by decide⟩
  exact .tail (.tail .refl (.enqueue _ ["a"] [0])) (.dispatch _)

/-- Claim C3, amended: `retry i` maps *every* entry of id `i` — whatever
its status, including `processing` — to status `idle` with `result` and
`failure` cleared, and leaves every other entry untouched; on an `idle`
entry whose fields are already clear (as in every reachable state) it is
a no-op. -/
theorem claim3_retry_amended (s : AppState) (i : String) :
    (handleRetry i s).queue.length = s.queue.length ∧
    ∀ (k : Nat) (hk : k < s.queue.length) (hk' : k < (handleRetry i s).queue.length),
      ((s.queue.get ⟨k, hk⟩).id = i →
          (handleRetry i s).queue.get ⟨k, hk'⟩ =
            { s.queue.get ⟨k, hk⟩ with
                status := Status.idle, subtitles := none, error := none }) ∧
      ((s.queue.get ⟨k, hk⟩).id ≠ i →
          (handleRetry i s).queue.get ⟨k, hk'⟩ = s.queue.get ⟨k, hk⟩) ∧
      ((s.queue.get ⟨k, hk⟩).id = i → (s.queue.get ⟨k, hk⟩).status = Status.idle →
          (s.queue.get ⟨k, hk⟩).subtitles = none → (s.queue.get ⟨k, hk⟩).error = none →
          (handleRetry i s).queue.get ⟨k, hk'⟩ = s.queue.get ⟨k, hk⟩) := by
  refine ⟨by simp [handleRetry], ?_⟩
  intro k hk hk'
  have hmap : (handleRetry i s).queue.get ⟨k, hk'⟩ =
      if (s.queue.get ⟨k, hk⟩).id = i
      then { s.queue.get ⟨k, hk⟩ with status := .idle, error := none, subtitles := none }
      else s.queue.get ⟨k, hk⟩ := by
    simp [handleRetry]
  refine ⟨?_, ?_, ?_⟩
  · intro hid
    rw [hmap, if_pos hid]
  · intro hid
    rw [hmap, if_neg hid]
  · intro hid hst hsub herr
    rw [hmap, if_pos hid]
    cases hq : s.queue.get ⟨k, hk⟩ with
    | mk gid gf gst gsub gerr gb =>
        rw [hq] at hst hsub herr
        simp_all

/-- Witness for C3-amended at a concrete state: one `completed` job. -/
theorem claim3_retry_amended_witness :
    (handleRetry "a" (resolveCall "a" (Except.ok "t")
        (processNextItem (handleFilesSelect ["a"] [0] init)))).queue.get ⟨0, by decide⟩ =
      { (resolveCall "a" (Except.ok "t")
          (processNextItem (handleFilesSelect ["a"] [0] init))).queue.get ⟨0, by decide⟩ with
          status := Status.idle, subtitles := none, error := none } :=
  ((claim3_retry_amended (resolveCall "a" (Except.ok "t")
      (processNextItem (handleFilesSelect ["a"] [0] init))) "a").2 0 (by decide)
      (by decide)).1 (by decide)

/-! ### Claim C1: the single-flight invariant -/

/-- Claim C1 (code bug evidence): the single-flight invariant is
violated on a reachable state.  `reset` clears the in-flight flag while
a transcription call is still outstanding; when the orphaned call later
resolves, its `finally` clause clears the flag again even though a new
call has been dispatched in the meantime, so the scheduler starts a
second concurrent job.  The final state below holds *two* jobs with
status `processing`. -/
theorem claim1_single_flight_code_bug :
    Reachable (processNextItem (resolveCall "a" (Except.ok "t")
        (processNextItem (handleFilesSelect ["b", "c"] [1, 2]
          (reset (processNextItem (handleFilesSelect ["a"] [0] init))))))) ∧
    ((processNextItem (resolveCall "a" (Except.ok "t")
        (processNextItem (handleFilesSelect ["b", "c"] [1, 2]
          (reset (processNextItem (handleFilesSelect ["a"] [0] init))))))).queue.filter
        (fun q => q.status == Status.processing)).length = 2 := by
  refine ⟨?_, by decide⟩
  exact .tail (.tail (.tail (.tail (.tail (.tail (.tail .refl
    (.enqueue _ ["a"] [0])) (.dispatch _)) (.clear _))
    (.enqueue _ ["b", "c"] [1, 2])) (.dispatch _))
    (.resolve _ "a" (Except.ok "t") (by decide))) (.dispatch _)

/-! ### Claim C2: FIFO dispatch -/

/-- The queue is always sorted by insertion stamp, and all stamps are
below the ghost counter. -/
def birthSorted (s : AppState) : Prop :=
  s.queue.Pairwise (fun a b => a.birth < b.birth) ∧ ∀ j ∈ s.queue, j.birth < s.nextBirth

lemma mkItems_birth_mem (ids : List String) :
    ∀ (files : List Nat) (n : Nat) (j : QueueItem), j ∈ mkItems ids files n →
      n ≤ j.birth ∧ j.birth < n + (mkItems ids files n).length := by
  induction ids with
  | nil => intro files n j hj; simp [mkItems] at hj
  | cons i is ih =>
      intro files n j hj
      cases files with
      | nil => simp [mkItems] at hj
      | cons f fs =>
          simp only [mkItems, List.mem_cons] at hj
          have hlen : (mkItems (i :: is) (f :: fs) n).length =
              (mkItems is fs (n + 1)).length + 1 := by simp [mkItems]
          rcases hj with rfl | hj
          · simp only [hlen]; omega
          · have := ih fs (n + 1) j hj
            simp only [hlen]; omega

lemma mkItems_sorted (ids : List String) :
    ∀ (files : List Nat) (n : Nat),
      (mkItems ids files n).Pairwise (fun a b => a.birth < b.birth) := by
  induction ids with
  | nil => intro files n; simp [mkItems]
  | cons i is ih =>
      intro files n
      cases files with
      | nil => simp [mkItems]
      | cons f fs =>
          simp only [mkItems]
          refine List.Pairwise.cons ?_ (ih fs (n + 1))
          intro j hj
          have := mkItems_birth_mem is fs (n + 1) j hj
          show n < j.birth
          omega

lemma pairwise_birth_map {l : List QueueItem} (u : QueueItem → QueueItem)
    (hu : ∀ q, (u q).birth = q.birth)
    (h : l.Pairwise (fun a b => a.birth < b.birth)) :
    (l.map u).Pairwise (fun a b => a.birth < b.birth) := by
  rw [List.pairwise_map]
  refine h.imp ?_
  intro a b hab
  rw [hu, hu]; exact hab

lemma birthSorted_of_map {s : AppState} (h : birthSorted s) (u : QueueItem → QueueItem)
    (hu : ∀ q, (u q).birth = q.birth) (b : Bool) (p : List String) :
    birthSorted ⟨s.queue.map u, b, p, s.nextBirth⟩ := by
  obtain ⟨hp, hb⟩ := h
  refine ⟨pairwise_birth_map u hu hp, ?_⟩
  intro j hj
  simp only [List.mem_map] at hj
  obtain ⟨q, hq, rfl⟩ := hj
  rw [hu]
  exact hb q hq

lemma step_birthSorted {s s' : AppState} (hs : Step s s') (h : birthSorted s) :
    birthSorted s' := by
  obtain ⟨hp, hb⟩ := h
  cases hs with
  | enqueue ids files =>
      constructor
      · simp only [handleFilesSelect]
        rw [List.pairwise_append]
        refine ⟨hp, mkItems_sorted ids files s.nextBirth, ?_⟩
        intro a ha b hb'
        have h1 := hb a ha
        have h2 := (mkItems_birth_mem ids files s.nextBirth b hb').1
        omega
      · intro j hj
        simp only [handleFilesSelect, List.mem_append] at hj
        simp only [handleFilesSelect]
        rcases hj with hj | hj
        · have := hb j hj; omega
        · have := (mkItems_birth_mem ids files s.nextBirth j hj).2; omega
  | dispatch =>
      unfold processNextItem
      split
      · exact ⟨hp, hb⟩
      · split
        · exact ⟨hp, hb⟩
        · exact birthSorted_of_map ⟨hp, hb⟩ _
            (fun q => by split <;> rfl) _ _
  | resolve i outcome h =>
      cases outcome with
      | ok t =>
          exact birthSorted_of_map ⟨hp, hb⟩ _
            (fun q => by split <;> rfl) _ _
      | error m =>
          exact birthSorted_of_map ⟨hp, hb⟩ _
            (fun q => by split <;> rfl) _ _
  | retry i =>
      exact birthSorted_of_map ⟨hp, hb⟩ _
        (fun q => by split <;> rfl) _ _
  | remove i =>
      refine ⟨List.Pairwise.sublist (List.filter_sublist _) hp, ?_⟩
      intro j hj
      exact hb j (List.mem_of_mem_filter hj)
  | clear => exact ⟨List.Pairwise.nil, by simp [reset]⟩

lemma reachable_birthSorted {s : AppState} (h : Reachable s) : birthSorted s := by
  induction h with
  | refl => exact ⟨List.Pairwise.nil, by simp [init]⟩
  | tail hab hbc ih => exact step_birthSorted hbc ih

lemma find_idle_min_birth :
    ∀ (l : List QueueItem), l.Pairwise (fun a b => a.birth < b.birth) →
      ∀ j, l.find? (fun q => q.status == Status.idle) = some j →
        j ∈ l ∧ j.status = Status.idle ∧
          ∀ k ∈ l, k.status = Status.idle → j.birth ≤ k.birth := by
  intro l
  induction l with
  | nil => intro _ j h; simp at h
  | cons a l ih =>
      intro hp j hfind
      by_cases ha : a.status = Status.idle
      · have ha' : (fun q : QueueItem => q.status == Status.idle) a = true := by simp [ha]
        rw [List.find?_cons_of_pos l ha'] at hfind
        obtain rfl := Option.some.inj hfind
        refine ⟨List.mem_cons_self a l, ha, ?_⟩
        intro k hk _
        rcases List.mem_cons.mp hk with rfl | hk
        · exact le_refl _
        · exact le_of_lt (List.rel_of_pairwise_cons hp hk)
      · have ha' : ¬ (fun q : QueueItem => q.status == Status.idle) a = true := by simp [ha]
        rw [List.find?_cons_of_neg l ha'] at hfind
        obtain ⟨hj1, hj2, hj3⟩ := ih (List.pairwise_cons.mp hp).2 j hfind
        refine ⟨List.mem_cons_of_mem a hj1, hj2, ?_⟩
        intro k hk hki
        rcases List.mem_cons.mp hk with rfl | hk
        · exact absurd hki ha
        · exact hj3 k hk hki

/-- Claim C2: whenever the scheduler dispatches (flag clear, some idle
job found), the claimed job is idle, its insertion stamp is minimal
among all idle jobs (it is the earliest-inserted idle job), its
transcription call is started (appended to `pending`), and an entry
with its id is marked `processing`. -/
theorem claim2_fifo_dispatch {s : AppState} (hr : Reachable s)
    (hip : s.isProcessing = false) {j : QueueItem}
    (hfind : s.queue.find? (fun q => q.status == Status.idle) = some j) :
    j ∈ s.queue ∧ j.status = Status.idle ∧
    (∀ k ∈ s.queue, k.status = Status.idle → j.birth ≤ k.birth) ∧
    (processNextItem s).pending = s.pending ++ [j.id] ∧
    ∃ q' ∈ (processNextItem s).queue, q'.id = j.id ∧ q'.status = Status.processing := by
  have hsorted := (reachable_birthSorted hr).1
  obtain ⟨hj1, hj2, hj3⟩ := find_idle_min_birth s.queue hsorted j hfind
  have hpni : processNextItem s =
      { s with
        isProcessing := true,
        queue := s.queue.map (fun q =>
          if q.id = j.id then { q with status := .processing } else q),
        pending := s.pending ++ [j.id] } := by
    unfold processNextItem
    rw [hfind]
    simp [hip]
  refine ⟨hj1, hj2, hj3, by rw [hpni], ?_⟩
  rw [hpni]
  refine ⟨{ j with status := .processing }, ?_, rfl, rfl⟩
  simp only [List.mem_map]
  exact ⟨j, hj1, by simp⟩

/-- Witness for C2 on the concrete reachable state with queue
`["a", "b"]`: the dispatched job is the earliest-inserted idle one. -/
theorem claim2_fifo_dispatch_witness :
    (processNextItem (handleFilesSelect ["a", "b"] [0, 1] init)).pending =
      (handleFilesSelect ["a", "b"] [0, 1] init).pending ++ ["a"] ∧
    ∀ k ∈ (handleFilesSelect ["a", "b"] [0, 1] init).queue,
      k.status = Status.idle →
      (⟨"a", 0, Status.idle, none, none, 0⟩ : QueueItem).birth ≤ k.birth := by
  have h := claim2_fifo_dispatch
    (s := handleFilesSelect ["a", "b"] [0, 1] init)
    (Relation.ReflTransGen.single (Step.enqueue init ["a", "b"] [0, 1]))
    (by decide) (j := ⟨"a", 0, .idle, none, none, 0⟩) (by decide)
  exact ⟨h.2.2.2.1, h.2.2.1⟩

/-! ### Claim C9: id uniqueness -/

/-- Claim C9 counterexample: the id oracle (`Math.random`) is not
prevented from repeating; enqueueing twice with the same drawn id yields
a reachable queue with duplicate ids. -/
theorem claim9_duplicate_id_cex :
    Reachable (handleFilesSelect ["a"] [1] (handleFilesSelect ["a"] [0] init)) ∧
    ¬ ((handleFilesSelect ["a"] [1] (handleFilesSelect ["a"] [0] init)).queue.map
        (fun q => q.id)).Nodup := by
  refine ⟨?_, by decide⟩
  exact .tail (.single (.enqueue init ["a"] [0])) (.enqueue _ ["a"] [1])

/-- The event relation restricted to runs in which the id oracle is
fresh: each enqueue draws pairwise-distinct ids not currently present in
the queue. -/
inductive FreshStep : AppState → AppState → Prop where
  | enqueue (s : AppState) (ids : List String) (files : List Nat)
      (h1 : ids.Nodup) (h2 : ∀ i ∈ ids, i ∉ s.queue.map (fun q => q.id)) :
      FreshStep s (handleFilesSelect ids files s)
  | dispatch (s : AppState) : FreshStep s (processNextItem s)
  | resolve (s : AppState) (i : String) (outcome : Except String String)
      (h : i ∈ s.pending) : FreshStep s (resolveCall i outcome s)
  | retry (s : AppState) (i : String) : FreshStep s (handleRetry i s)
  | remove (s : AppState) (i : String) : FreshStep s (removeItem i s)
  | clear (s : AppState) : FreshStep s (reset s)

/-- Reachability under a fresh id oracle. -/
def FreshReachable (s : AppState) : Prop := Relation.ReflTransGen FreshStep init s

lemma mkItems_ids_sublist (ids : List String) :
    ∀ (files : List Nat) (n : Nat),
      List.Sublist ((mkItems ids files n).map (fun q => q.id)) ids := by
  induction ids with
  | nil => intro files n; simp [mkItems]
  | cons i is ih =>
      intro files n
      cases files with
      | nil => simp [mkItems]
      | cons f fs =>
          simpa [mkItems] using List.Sublist.cons₂ i (ih fs (n + 1))

lemma map_ids_of_update (l : List QueueItem) (u : QueueItem → QueueItem)
    (hu : ∀ q, (u q).id = q.id) :
    (l.map u).map (fun q => q.id) = l.map (fun q => q.id) := by
  rw [List.map_map]
  apply List.map_congr_left
  intro q _
  exact hu q

lemma nodup_ids_of_map {l : List QueueItem} (hn : (l.map (fun q => q.id)).Nodup)
    (u : QueueItem → QueueItem) (hu : ∀ q, (u q).id = q.id) :
    ((l.map u).map (fun q => q.id)).Nodup := by
  rwa [map_ids_of_update l u hu]

lemma freshStep_nodup {s s' : AppState} (h : FreshStep s s')
    (hn : (s.queue.map (fun q => q.id)).Nodup) :
    (s'.queue.map (fun q => q.id)).Nodup := by
  cases h with
  | enqueue ids files h1 h2 =>
      simp only [handleFilesSelect, List.map_append]
      rw [List.nodup_append]
      refine ⟨hn, h1.sublist (mkItems_ids_sublist ids files s.nextBirth), ?_⟩
      intro a ha hb
      exact h2 a ((mkItems_ids_sublist ids files s.nextBirth).subset hb) ha
  | dispatch =>
      unfold processNextItem
      split
      · exact hn
      · split
        · exact hn
        · exact nodup_ids_of_map hn _ (fun q => by split <;> rfl)
  | resolve i outcome h =>
      cases outcome with
      | ok t =>
          exact nodup_ids_of_map hn _ (fun q => by split <;> rfl)
      | error m =>
          exact nodup_ids_of_map hn _ (fun q => by split <;> rfl)
  | retry i =>
      exact nodup_ids_of_map hn _ (fun q => by split <;> rfl)
  | remove i =>
      simp only [removeItem]
      exact hn.sublist ((List.filter_sublist s.queue).map (fun q : QueueItem => q.id))
  | clear => simp [reset]

/-- Claim C9, amended: under a fresh id oracle every reachable queue has
pairwise-distinct ids (the source draws unchecked random strings, so
freshness of the oracle is an assumption, not a code guarantee); and no
in-place operation (dispatch, resolution, retry) ever rewrites an id —
ids only appear by append and disappear by removal. -/
theorem claim9_unique_ids_amended {s : AppState} (h : FreshReachable s) :
    (s.queue.map (fun q => q.id)).Nodup ∧
    ∀ (i : String) (outcome : Except String String),
      (processNextItem s).queue.map (fun q => q.id) = s.queue.map (fun q => q.id) ∧
      (resolveCall i outcome s).queue.map (fun q => q.id) = s.queue.map (fun q => q.id) ∧
      (handleRetry i s).queue.map (fun q => q.id) = s.queue.map (fun q => q.id) := by
  constructor
  · induction h with
    | refl => simp [init]
    | tail hab hbc ih => exact freshStep_nodup hbc ih
  · intro i outcome
    refine ⟨?_, ?_, ?_⟩
    · unfold processNextItem
      split
      · rfl
      · split
        · rfl
        · exact map_ids_of_update _ _ (fun q => by split <;> rfl)
    · cases outcome with
      | ok t =>
          exact map_ids_of_update _ _ (fun q => by split <;> rfl)
      | error m =>
          exact map_ids_of_update _ _ (fun q => by split <;> rfl)
    · exact map_ids_of_update _ _ (fun q => by split <;> rfl)

/-- Witness for C9-amended on a concrete fresh run. -/
theorem claim9_unique_ids_amended_witness :
    ((handleFilesSelect ["a", "b"] [0, 1] init).queue.map (fun q => q.id)).Nodup :=
  (claim9_unique_ids_amended
    (Relation.ReflTransGen.single
      (FreshStep.enqueue init ["a", "b"] [0, 1] (by decide) (by decide)))).1

/-! ## The transcription service (src/services/geminiService.ts) -/

/-- The backquote character, i.e. the character of the markdown
code-fence token. -/
def backquote : Char := "`".toList.headD ' '

/-- The JavaScript `\s` / `String.trim` whitespace class (ASCII part
plus no-break space and BOM; the source strings only ever exercise
space, tab, CR and LF). -/
def jsWhitespace (c : Char) : Bool :=
  c == ' ' || c == '\t' || c == '\n' || c == '\r' || c == '\x0b' || c == '\x0c' ||
    c == '\u00A0' || c == '\uFEFF'

/-- JavaScript `String.prototype.trim` on a character list. -/
def trimChars (l : List Char) : List Char :=
  ((l.dropWhile jsWhitespace).reverse.dropWhile jsWhitespace).reverse

/-- `text.replace(/```vtt/gi, '')`: one left-to-right pass deleting every
(ASCII case-insensitive) occurrence of the six-character vtt fence
token; scanning resumes after each deleted occurrence, exactly as a
global regex replace does. -/
def replaceVttFence : List Char → List Char
  | [] => []
  | [c1] => [c1]
  | [c1, c2] => [c1, c2]
  | [c1, c2, c3] => [c1, c2, c3]
  | [c1, c2, c3, c4] => [c1, c2, c3, c4]
  | [c1, c2, c3, c4, c5] => [c1, c2, c3, c4, c5]
  | c1 :: c2 :: c3 :: c4 :: c5 :: c6 :: rest =>
      if c1 = backquote ∧ c2 = backquote ∧ c3 = backquote ∧
         (c4 = 'v' ∨ c4 = 'V') ∧ (c5 = 't' ∨ c5 = 'T') ∧ (c6 = 't' ∨ c6 = 'T')
      then replaceVttFence rest
      else c1 :: replaceVttFence (c2 :: c3 :: c4 :: c5 :: c6 :: rest)

/-- `text.replace(/```/g, '')`: one left-to-right pass deleting every
occurrence of the three-backquote fence token. -/
def replaceFence : List Char → List Char
  | [] => []
  | [c1] => [c1]
  | [c1, c2] => [c1, c2]
  | c1 :: c2 :: c3 :: rest =>
      if c1 = backquote ∧ c2 = backquote ∧ c3 = backquote
      then replaceFence rest
      else c1 :: replaceFence (c2 :: c3 :: rest)

/-- `generateSubtitles` of `src/services/geminiService.ts`, as a function
of the API key and the model's `response.text` (`none` when the field is
absent): missing key or falsy text throw; otherwise the markdown
code-fence decorators are deleted and the result trimmed.  External
transport failures of the underlying call are modelled at the
`resolveCall` level of the queue system. -/
def generateSubtitles (apiKey : String) (responseText : Option String) :
    Except String String :=
  if apiKey = "" then
    Except.error "API Key is missing. Please check your environment configuration."
  else
    match responseText with
    | none => Except.error "No text generated from the model."
    | some text =>
        if text = "" then Except.error "No text generated from the model."
        else Except.ok (String.mk (trimChars (replaceFence (replaceVttFence text.data))))

lemma replaceVttFence_cons_of_ne {c : Char} (hc : c ≠ backquote) (t : List Char) :
    replaceVttFence (c :: t) = c :: replaceVttFence t := by
  rcases t with _ | ⟨a, _ | ⟨b, _ | ⟨d, _ | ⟨e, _ | ⟨f, t'⟩⟩⟩⟩⟩
  · rfl
  · rfl
  · rfl
  · rfl
  · rfl
  · simp only [replaceVttFence]
    rw [if_neg (fun h => hc h.1)]

lemma replaceVttFence_append {l : List Char} (hl : ∀ c ∈ l, c ≠ backquote)
    (t : List Char) : replaceVttFence (l ++ t) = l ++ replaceVttFence t := by
  induction l with
  | nil => simp
  | cons c l ih =>
      rw [List.cons_append, replaceVttFence_cons_of_ne (hl c (List.mem_cons_self c l)),
        ih (fun x hx => hl x (List.mem_cons_of_mem c hx)), List.cons_append]

lemma replaceVttFence_bq1 {c : Char} (hc : c ≠ backquote) (u : List Char) :
    replaceVttFence (backquote :: c :: u) = backquote :: replaceVttFence (c :: u) := by
  rcases u with _ | ⟨a, _ | ⟨b, _ | ⟨d, _ | ⟨e, u'⟩⟩⟩⟩
  · rfl
  · rfl
  · rfl
  · rfl
  · simp only [replaceVttFence]
    rw [if_neg (fun h => hc h.2.1)]

lemma replaceVttFence_bq2 {c : Char} (hc : c ≠ backquote) (u : List Char) :
    replaceVttFence (backquote :: backquote :: c :: u) =
      backquote :: backquote :: replaceVttFence (c :: u) := by
  rcases u with _ | ⟨a, _ | ⟨b, _ | ⟨d, u'⟩⟩⟩
  · rfl
  · rfl
  · rfl
  · simp only [replaceVttFence]
    rw [if_neg (fun h => hc h.2.2.1), replaceVttFence_bq1 hc]

lemma replaceVttFence_bq3 {c : Char} (hv : c ≠ 'v') (hV : c ≠ 'V')
    (hc : c ≠ backquote) (u : List Char) :
    replaceVttFence (backquote :: backquote :: backquote :: c :: u) =
      backquote :: backquote :: backquote :: replaceVttFence (c :: u) := by
  rcases u with _ | ⟨a, _ | ⟨b, u'⟩⟩
  · rfl
  · rfl
  · simp only [replaceVttFence]
    rw [if_neg (fun h => h.2.2.2.1.elim hv hV), replaceVttFence_bq2 hc]

lemma replaceVttFence_vtt {c4 c5 c6 : Char} (h4 : c4 = 'v' ∨ c4 = 'V')
    (h5 : c5 = 't' ∨ c5 = 'T') (h6 : c6 = 't' ∨ c6 = 'T') (rest : List Char) :
    replaceVttFence (backquote :: backquote :: backquote :: c4 :: c5 :: c6 :: rest) =
      replaceVttFence rest := by
  have heq : replaceVttFence (backquote :: backquote :: backquote :: c4 :: c5 :: c6 :: rest) =
      if backquote = backquote ∧ backquote = backquote ∧ backquote = backquote ∧
         (c4 = 'v' ∨ c4 = 'V') ∧ (c5 = 't' ∨ c5 = 'T') ∧ (c6 = 't' ∨ c6 = 'T')
      then replaceVttFence rest
      else backquote :: replaceVttFence (backquote :: backquote :: c4 :: c5 :: c6 :: rest) := rfl
  rw [heq, if_pos ⟨rfl, rfl, rfl, h4, h5, h6⟩]

lemma replaceFence_cons_of_ne {c : Char} (hc : c ≠ backquote) (t : List Char) :
    replaceFence (c :: t) = c :: replaceFence t := by
  rcases t with _ | ⟨a, _ | ⟨b, t'⟩⟩
  · rfl
  · rfl
  · simp only [replaceFence]
    rw [if_neg (fun h => hc h.1)]

lemma replaceFence_append {l : List Char} (hl : ∀ c ∈ l, c ≠ backquote)
    (t : List Char) : replaceFence (l ++ t) = l ++ replaceFence t := by
  induction l with
  | nil => simp
  | cons c l ih =>
      rw [List.cons_append, replaceFence_cons_of_ne (hl c (List.mem_cons_self c l)),
        ih (fun x hx => hl x (List.mem_cons_of_mem c hx)), List.cons_append]

lemma replaceFence_bq3 (rest : List Char) :
    replaceFence (backquote :: backquote :: backquote :: rest) = replaceFence rest := by
  have heq : replaceFence (backquote :: backquote :: backquote :: rest) =
      if backquote = backquote ∧ backquote = backquote ∧ backquote = backquote
      then replaceFence rest
      else backquote :: replaceFence (backquote :: backquote :: rest) := rfl
  rw [heq, if_pos ⟨rfl, rfl, rfl⟩]

lemma trimChars_cons_ws {c : Char} (hc : jsWhitespace c = true) (l : List Char) :
    trimChars (c :: l) = trimChars l := by
  simp [trimChars, List.dropWhile_cons, hc]

lemma dropWhile_append_left {α} (p : α → Bool) (l t : List α)
    (h : l.dropWhile p ≠ []) : (l ++ t).dropWhile p = l.dropWhile p ++ t := by
  induction l with
  | nil => simp at h
  | cons a l ih =>
      by_cases ha : p a
      · rw [List.cons_append, List.dropWhile_cons_of_pos ha]
        rw [List.dropWhile_cons_of_pos ha] at h ⊢
        exact ih h
      · rw [List.cons_append, List.dropWhile_cons_of_neg ha,
          List.dropWhile_cons_of_neg ha, List.cons_append]

lemma dropWhile_append_all {α} (p : α → Bool) (l t : List α)
    (h : l.dropWhile p = []) : (l ++ t).dropWhile p = t.dropWhile p := by
  induction l with
  | nil => simp
  | cons a l ih =>
      by_cases ha : p a
      · rw [List.dropWhile_cons_of_pos ha] at h
        rw [List.cons_append, List.dropWhile_cons_of_pos ha]
        exact ih h
      · rw [List.dropWhile_cons_of_neg ha] at h
        exact absurd h (by simp)

lemma trimChars_append_ws {c : Char} (hc : jsWhitespace c = true) (l : List Char) :
    trimChars (l ++ [c]) = trimChars l := by
  unfold trimChars
  by_cases h : l.dropWhile jsWhitespace = []
  · rw [dropWhile_append_all _ _ _ h, h]
    simp [List.dropWhile_cons, hc]
  · rw [dropWhile_append_left _ _ _ h, List.reverse_append]
    simp [List.dropWhile_cons, hc]

lemma mem_dropWhile_of_mem {α} {p : α → Bool} {c : α} :
    ∀ {l : List α}, c ∈ l → p c = false → c ∈ l.dropWhile p := by
  intro l
  induction l with
  | nil => intro h; simp at h
  | cons a l ih =>
      intro hc hp
      by_cases ha : p a
      · rw [List.dropWhile_cons_of_pos ha]
        rcases List.mem_cons.mp hc with rfl | hc
        · rw [ha] at hp; cases hp
        · exact ih hc hp
      · rw [List.dropWhile_cons_of_neg ha]
        exact hc

lemma trimChars_ne_nil_of_mem {l : List Char} {c : Char} (hc : c ∈ l)
    (hns : jsWhitespace c = false) : trimChars l ≠ [] := by
  have h1 : c ∈ l.dropWhile jsWhitespace := mem_dropWhile_of_mem hc hns
  have h2 : c ∈ (l.dropWhile jsWhitespace).reverse := List.mem_reverse.mpr h1
  have h3 : c ∈ ((l.dropWhile jsWhitespace).reverse.dropWhile jsWhitespace) :=
    mem_dropWhile_of_mem h2 hns
  have h4 : c ∈ trimChars l := List.mem_reverse.mpr h3
  exact List.ne_nil_of_mem h4

lemma cleanup_vtt_wrapped (pl : List Char) (hp : ∀ c ∈ pl, c ≠ backquote) :
    trimChars (replaceFence (replaceVttFence
      ((backquote :: backquote :: backquote :: 'v' :: 't' :: 't' :: '\n' :: pl) ++
        ['\n', backquote, backquote, backquote]))) = trimChars pl := by
  have hnb : ∀ c ∈ '\n' :: pl, c ≠ backquote := by
    intro c hc
    rcases List.mem_cons.mp hc with rfl | hc
    · decide
    · exact hp c hc
  have h1 : (backquote :: backquote :: backquote :: 'v' :: 't' :: 't' :: '\n' :: pl) ++
      ['\n', backquote, backquote, backquote] =
      backquote :: backquote :: backquote :: 'v' :: 't' :: 't' ::
        (('\n' :: pl) ++ ['\n', backquote, backquote, backquote]) := by simp
  have h2 : replaceVttFence ['\n', backquote, backquote, backquote] =
      ['\n', backquote, backquote, backquote] := by decide
  have h3 : replaceFence ['\n', backquote, backquote, backquote] = ['\n'] := by decide
  rw [h1, replaceVttFence_vtt (Or.inl rfl) (Or.inl rfl) (Or.inl rfl),
    replaceVttFence_append hnb, h2, replaceFence_append hnb, h3,
    List.cons_append, trimChars_cons_ws (by decide), trimChars_append_ws (by decide)]

lemma cleanup_plain_wrapped (pl : List Char) (hp : ∀ c ∈ pl, c ≠ backquote) :
    trimChars (replaceFence (replaceVttFence
      ((backquote :: backquote :: backquote :: '\n' :: pl) ++
        ['\n', backquote, backquote, backquote]))) = trimChars pl := by
  have h1 : (backquote :: backquote :: backquote :: '\n' :: pl) ++
      ['\n', backquote, backquote, backquote] =
      backquote :: backquote :: backquote :: '\n' ::
        (pl ++ ['\n', backquote, backquote, backquote]) := by simp
  have h2 : replaceVttFence ['\n', backquote, backquote, backquote] =
      ['\n', backquote, backquote, backquote] := by decide
  have h3 : replaceFence ['\n', backquote, backquote, backquote] = ['\n'] := by decide
  have h4 : replaceVttFence ('\n' :: (pl ++ ['\n', backquote, backquote, backquote])) =
      '\n' :: (pl ++ ['\n', backquote, backquote, backquote]) := by
    rw [replaceVttFence_cons_of_ne (by decide), replaceVttFence_append hp, h2]
  rw [h1, replaceVttFence_bq3 (by decide) (by decide) (by decide), h4,
    replaceFence_bq3, replaceFence_cons_of_ne (by decide), replaceFence_append hp, h3,
    trimChars_cons_ws (by decide), trimChars_append_ws (by decide)]

lemma generateSubtitles_some {key : String} (hkey : key ≠ "") (t : String) :
    generateSubtitles key (some t) =
      if t = "" then Except.error "No text generated from the model."
      else Except.ok (String.mk (trimChars (replaceFence (replaceVttFence t.data)))) := by
  unfold generateSubtitles
  rw [if_neg hkey]

/-! ### Claim C7: empty transcripts -/

/-- Claim C7 counterexample: the emptiness check of `generateSubtitles`
runs *before* the code-fence cleanup, so a model response consisting
only of a fence token is accepted: it cleans to the empty string and the
Job reaches status `completed` with the empty transcript stored as its
result — an empty transcript *is* accepted as a valid completed
result. -/
theorem claim7_empty_cex :
    generateSubtitles "k" (some "```") = Except.ok "" ∧
    Reachable (resolveCall "a" (generateSubtitles "k" (some "```"))
      (processNextItem (handleFilesSelect ["a"] [0] init))) ∧
    ∃ j ∈ (resolveCall "a" (generateSubtitles "k" (some "```"))
        (processNextItem (handleFilesSelect ["a"] [0] init))).queue,
      j.status = Status.completed ∧ j.subtitles = some "" := by
  refine ⟨by rfl, ?_, by decide⟩
  exact .tail (.tail (.single (.enqueue init ["a"] [0])) (.dispatch _))
    (.resolve _ "a" _ (by decide))

/-- Claim C7, amended: when the model's response text is empty or
missing, `generateSubtitles` fails, and a failed call drives the
affected Job to status `error`; however a *nonempty* response may still
clean to an empty accepted result (see the counterexample), so "empty
transcript never stored as a completed result" does not hold. -/
theorem claim7_empty_error_amended :
    (∀ (key : String) (rt : Option String), rt.getD "" = "" →
      ∃ m, generateSubtitles key rt = Except.error m) ∧
    (∀ (s : AppState) (i m : String) (k : Nat) (hk : k < s.queue.length)
        (hk' : k < (resolveCall i (Except.error m) s).queue.length),
      (s.queue.get ⟨k, hk⟩).id = i →
      ((resolveCall i (Except.error m) s).queue.get ⟨k, hk'⟩).status = Status.error) := by
  constructor
  · intro key rt hrt
    unfold generateSubtitles
    by_cases hkey : key = ""
    · exact ⟨_, by rw [if_pos hkey]⟩
    · rw [if_neg hkey]
      cases rt with
      | none => exact ⟨_, rfl⟩
      | some text =>
          have ht : text = "" := by simpa using hrt
          subst ht
          exact ⟨_, rfl⟩
  · intro s i m k hk hk' hid
    have hmap : (resolveCall i (Except.error m) s).queue.get ⟨k, hk'⟩ =
        if (s.queue.get ⟨k, hk⟩).id = i
        then { s.queue.get ⟨k, hk⟩ with
               status := .error,
               error := some (if m = "" then "Processing failed" else m) }
        else s.queue.get ⟨k, hk⟩ := by
      simp [resolveCall]
    rw [hmap, if_pos hid]

/-- Witness for C7-amended: a missing response text fails, and resolving
a failed call marks the concrete queue entry `error`. -/
theorem claim7_empty_error_amended_witness :
    (∃ m, generateSubtitles "k" none = Except.error m) ∧
    ((resolveCall "a" (Except.error "boom")
        (processNextItem (handleFilesSelect ["a"] [0] init))).queue.get
        ⟨0, by decide⟩).status = Status.error :=
  ⟨claim7_empty_error_amended.1 "k" none rfl,
    claim7_empty_error_amended.2
      (processNextItem (handleFilesSelect ["a"] [0] init)) "a" "boom" 0
      (by decide) (by decide) (by decide)⟩

/-! ### Claim C8: code-fence stripping -/

/-- Claim C8: for any fence-free payload, a model response wrapping it
in markdown code-fence decorators (either the plain three-backquote
token or the vtt-tagged one) is accepted with the decorators removed and
the surrounding whitespace trimmed before being stored. -/
theorem claim8_fence_strip (key p : String) (hkey : key ≠ "")
    (hp : ∀ c ∈ p.data, c ≠ backquote) :
    generateSubtitles key (some ("```vtt\n" ++ p ++ "\n```")) =
      Except.ok (String.mk (trimChars p.data)) ∧
    generateSubtitles key (some ("```\n" ++ p ++ "\n```")) =
      Except.ok (String.mk (trimChars p.data)) := by
  have hd1 : ("```vtt\n" ++ p ++ "\n```").data =
      (backquote :: backquote :: backquote :: 'v' :: 't' :: 't' :: '\n' :: p.data) ++
        ['\n', backquote, backquote, backquote] := by
    rw [String.data_append, String.data_append]
    have hh : ("```vtt\n" : String).data =
        [backquote, backquote, backquote, 'v', 't', 't', '\n'] := by decide
    have ht : ("\n```" : String).data = ['\n', backquote, backquote, backquote] := by decide
    rw [hh, ht]
    simp
  have hd2 : ("```\n" ++ p ++ "\n```").data =
      (backquote :: backquote :: backquote :: '\n' :: p.data) ++
        ['\n', backquote, backquote, backquote] := by
    rw [String.data_append, String.data_append]
    have hh : ("```\n" : String).data = [backquote, backquote, backquote, '\n'] := by decide
    have ht : ("\n```" : String).data = ['\n', backquote, backquote, backquote] := by decide
    rw [hh, ht]
    simp
  have hne1 : ("```vtt\n" ++ p ++ "\n```") ≠ "" := by
    intro h
    have := congrArg String.data h
    rw [hd1] at this
    simp at this
  have hne2 : ("```\n" ++ p ++ "\n```") ≠ "" := by
    intro h
    have := congrArg String.data h
    rw [hd2] at this
    simp at this
  constructor
  · rw [generateSubtitles_some hkey, if_neg hne1, hd1, cleanup_vtt_wrapped p.data hp]
  · rw [generateSubtitles_some hkey, if_neg hne2, hd2, cleanup_plain_wrapped p.data hp]

/-- Witness for C8 on a concrete payload. -/
theorem claim8_fence_strip_witness :
    generateSubtitles "k" (some ("```vtt\n" ++ "WEBVTT subs" ++ "\n```")) =
      Except.ok (String.mk (trimChars ("WEBVTT subs" : String).data)) ∧
    generateSubtitles "k" (some ("```\n" ++ "WEBVTT subs" ++ "\n```")) =
      Except.ok (String.mk (trimChars ("WEBVTT subs" : String).data)) :=
  claim8_fence_strip "k" "WEBVTT subs" (by decide) (by decide)

/-! ## The subtitle format converter (src/utils/fileHelpers.ts) -/

/-- Prepend a character to the first piece of a split result. -/
def consHead (c : Char) : List (List Char) → List (List Char)
  | [] => [[c]]
  | h :: t => (c :: h) :: t

/-- JavaScript `block.split('\n')`. -/
def splitNl : List Char → List (List Char)
  | [] => [[]]
  | c :: r => if c = '\n' then [] :: splitNl r else consHead c (splitNl r)

/-- JavaScript `lines.join('\n')`. -/
def joinNl : List (List Char) → List Char
  | [] => []
  | [l] => l
  | l :: ls => l ++ '\n' :: joinNl ls

/-- The scanner behind `cleanVtt.split(/\n\n+/)`.  In block mode
(`skip = false`) it accumulates the current block (reversed in `acc`)
until it sees two consecutive newlines; in separator mode
(`skip = true`) it swallows the remaining newlines of the separator
run. -/
def sbGo : Bool → List Char → List Char → List (List Char)
  | true, _, [] => [[]]
  | false, acc, [] => [acc.reverse]
  | true, _, [c] => if c = '\n' then [[]] else [[c]]
  | false, acc, [c] => [(c :: acc).reverse]
  | true, acc, c1 :: c2 :: rest =>
      if c1 = '\n' then sbGo true acc (c2 :: rest) else sbGo false [c1] (c2 :: rest)
  | false, acc, c1 :: c2 :: rest =>
      if c1 = '\n' ∧ c2 = '\n' then acc.reverse :: sbGo true [] rest
      else sbGo false (c1 :: acc) (c2 :: rest)

/-- JavaScript `s.split(/\n\n+/)`. -/
def splitBlocks (s : List Char) : List (List Char) := sbGo false [] s

/-- JavaScript `blocks.join('\n\n')`. -/
def joinBlocks : List (List Char) → List Char
  | [] => []
  | [b] => b
  | b :: bs => b ++ '\n' :: '\n' :: joinBlocks bs

/-- JavaScript `line.includes('-->')`. -/
def hasArrow : List Char → Bool
  | [] => false
  | c :: r => ((c :: r).take 3 == ['-', '-', '>']) || hasArrow r

/-- JavaScript `line.replace(/\./g, ',')`. -/
def dotsToCommas (l : List Char) : List Char :=
  l.map (fun c => if c = '.' then ',' else c)

/-- JavaScript `lines.findIndex(l => l.includes('-->'))` (as an
`Option`). -/
def findTimeIdx : List (List Char) → Option Nat
  | [] => none
  | l :: ls => if hasArrow l then some 0 else (findTimeIdx ls).map (· + 1)

/-- The per-block body of the converter: find the time-range line; if
none exists return the empty block (to be filtered out); otherwise
rewrite its dots to commas and rejoin the lines. -/
def processBlock (b : List Char) : List Char :=
  match findTimeIdx (splitNl b) with
  | none => []
  | some i => joinNl ((splitNl b).set i (dotsToCommas ((splitNl b).getD i [])))

/-- The greedy `(\r\n|\n)+` loop of the header regex: number of
characters consumed by a maximal run of newline units (each unit
preferring `\r\n` over `\n`). -/
def newlineRun : List Char → Nat
  | [] => 0
  | [c] => if c = '\n' then 1 else 0
  | c1 :: c2 :: r =>
      if c1 = '\r' ∧ c2 = '\n' then 2 + newlineRun r
      else if c1 = '\n' then 1 + newlineRun (c2 :: r) else 0

/-- Whether a `(\r\n|\n)` unit can match at the head of the list. -/
def unitStarts : List Char → Bool
  | [] => false
  | [c] => c == '\n'
  | c1 :: c2 :: _ => c1 == '\n' || (c1 == '\r' && c2 == '\n')

/-- The backtracking of `\s*` in the header regex: the largest ws-prefix
length `k ≤ m` at which a newline unit can start. -/
def findK (t : List Char) : Nat → Option Nat
  | 0 => if unitStarts t then some 0 else none
  | k + 1 => if unitStarts (t.drop (k + 1)) then some (k + 1) else findK t k

/-- The length of the (anchored, first) match of
`/^WEBVTT\s*(\r\n|\n)+/`, when one exists: the literal header token,
then the backtracked `\s*` prefix, then the greedy newline-unit run. -/
def headerMatchLen (s : List Char) : Option Nat :=
  if s.take 6 = ("WEBVTT" : String).data then
    match findK (s.drop 6) (((s.drop 6).takeWhile jsWhitespace).length) with
    | none => none
    | some k => some (6 + k + newlineRun ((s.drop 6).drop k))
  else none

/-- JavaScript `vtt.replace(/^WEBVTT\s*(\r\n|\n)+/, '')`. -/
def stripHeader (s : List Char) : List Char :=
  match headerMatchLen s with
  | none => s
  | some n => s.drop n

/-- `vttToSrt` of `src/utils/fileHelpers.ts`: strip the header, split
into blocks on blank lines, rewrite each cue's time line, drop blocks
without a time line (and whitespace-only remnants), and join with blank
lines.  No cue index numbers are emitted. -/
def vttToSrt (vtt : String) : String :=
  if vtt = "" then ""
  else
    String.mk (joinBlocks
      (((splitBlocks (stripHeader vtt.data)).map processBlock).filter
        (fun b => !(trimChars b).isEmpty)))

example :
    vttToSrt "WEBVTT\n\n00:00:00.000 --> 00:00:04.000\nHello\n\n00:00:04.500 --> 00:00:06.000\nWorld" =
      "00:00:00,000 --> 00:00:04,000\nHello\n\n00:00:04,500 --> 00:00:06,000\nWorld" := by
  decide

example : vttToSrt "" = "" := by decide

example : vttToSrt "WEBVTT\n\nNOTE stray metadata\n\n00:01.000 --> 00:02.000\nhi" =
    "00:01,000 --> 00:02,000\nhi" := by decide

example : vttToSrt "x\n\nWEBVTT\na --> b" = "WEBVTT\na --> b" := by decide

example : vttToSrt "WEBVTT\na --> b" = "a --> b" := by decide

/-! ### Line split/join lemmas -/

lemma splitNl_ne_nil (s : List Char) : splitNl s ≠ [] := by
  cases s with
  | nil => simp [splitNl]
  | cons c r =>
      simp only [splitNl]
      split
      · simp
      · cases h : splitNl r with
        | nil => simp [consHead]
        | cons hd tl => simp [consHead]

lemma joinNl_splitNl : ∀ s : List Char, joinNl (splitNl s) = s := by
  intro s
  induction s with
  | nil => rfl
  | cons c r ih =>
      simp only [splitNl]
      by_cases hc : c = '\n'
      · subst hc
        rw [if_pos rfl]
        cases h : splitNl r with
        | nil => exact absurd h (splitNl_ne_nil r)
        | cons hd tl =>
            rw [h] at ih
            show [] ++ '\n' :: joinNl (hd :: tl) = '\n' :: r
            rw [ih]
            rfl
      · rw [if_neg hc]
        cases h : splitNl r with
        | nil => exact absurd h (splitNl_ne_nil r)
        | cons hd tl =>
            rw [h] at ih
            show joinNl ((c :: hd) :: tl) = c :: r
            cases tl with
            | nil =>
                simp only [joinNl] at ih ⊢
                rw [ih]
            | cons t1 ts =>
                simp only [joinNl] at ih ⊢
                rw [List.cons_append, ih]

lemma splitNl_no_nl : ∀ (s : List Char) (l : List Char), l ∈ splitNl s → '\n' ∉ l := by
  intro s
  induction s with
  | nil =>
      intro l hl
      simp [splitNl] at hl
      subst hl; simp
  | cons c r ih =>
      intro l hl
      simp only [splitNl] at hl
      by_cases hc : c = '\n'
      · rw [if_pos hc] at hl
        rcases List.mem_cons.mp hl with rfl | hl
        · simp
        · exact ih l hl
      · rw [if_neg hc] at hl
        cases h : splitNl r with
        | nil => exact absurd h (splitNl_ne_nil r)
        | cons hd tl =>
            rw [h] at hl
            rcases List.mem_cons.mp (show l ∈ (c :: hd) :: tl from hl) with rfl | hl
            · intro hmem
              rcases List.mem_cons.mp hmem with h1 | h1
              · exact hc h1.symm
              · exact ih hd (by rw [h]; exact List.mem_cons_self hd tl) h1
            · exact ih l (by rw [h]; exact List.mem_cons_of_mem hd hl)

lemma splitNl_single : ∀ (l : List Char), '\n' ∉ l → splitNl l = [l] := by
  intro l
  induction l with
  | nil => intro; rfl
  | cons c r ih =>
      intro h
      have hc : c ≠ '\n' := fun e => h (e ▸ List.mem_cons_self c r)
      simp only [splitNl]
      rw [if_neg hc, ih (fun hm => h (List.mem_cons_of_mem c hm))]
      rfl

lemma splitNl_append_nl : ∀ (u : List Char), '\n' ∉ u →
    ∀ v, splitNl (u ++ '\n' :: v) = u :: splitNl v := by
  intro u
  induction u with
  | nil =>
      intro _ v
      simp [splitNl]
  | cons c u ih =>
      intro h v
      have hc : c ≠ '\n' := fun e => h (e ▸ List.mem_cons_self c u)
      rw [List.cons_append]
      show splitNl (c :: (u ++ '\n' :: v)) = (c :: u) :: splitNl v
      simp only [splitNl]
      rw [if_neg hc, ih (fun hm => h (List.mem_cons_of_mem c hm)) v]
      rfl

lemma splitNl_joinNl : ∀ (lines : List (List Char)), lines ≠ [] →
    (∀ l ∈ lines, '\n' ∉ l) → splitNl (joinNl lines) = lines := by
  intro lines
  induction lines with
  | nil => intro h; cases h rfl
  | cons l ls ih =>
      intro _ hnl
      cases ls with
      | nil => exact splitNl_single l (hnl l (List.mem_cons_self l []))
      | cons l2 ls2 =>
          rw [show joinNl (l :: l2 :: ls2) = l ++ '\n' :: joinNl (l2 :: ls2) from rfl]
          rw [splitNl_append_nl l (hnl l (List.mem_cons_self l (l2 :: ls2))) _]
          rw [ih (by simp) (fun x hx => hnl x (List.mem_cons_of_mem l hx))]

/-! ### Block split/join lemmas -/

/-- No two consecutive newline characters. -/
def noDouble (l : List Char) : Prop :=
  l.Chain' (fun a b => ¬(a = '\n' ∧ b = '\n'))

lemma sbGo_false_nil (acc : List Char) : sbGo false acc [] = [acc.reverse] := rfl

lemma sbGo_true_nil (acc : List Char) : sbGo true acc [] = [[]] := rfl

lemma sbGo_false_one (acc : List Char) (c : Char) :
    sbGo false acc [c] = [(c :: acc).reverse] := rfl

lemma sbGo_true_one (acc : List Char) (c : Char) :
    sbGo true acc [c] = if c = '\n' then [[]] else [[c]] := rfl

lemma sbGo_false_cons2 (acc : List Char) (c1 c2 : Char) (rest : List Char) :
    sbGo false acc (c1 :: c2 :: rest) =
      if c1 = '\n' ∧ c2 = '\n' then acc.reverse :: sbGo true [] rest
      else sbGo false (c1 :: acc) (c2 :: rest) := rfl

lemma sbGo_true_cons2 (acc : List Char) (c1 c2 : Char) (rest : List Char) :
    sbGo true acc (c1 :: c2 :: rest) =
      if c1 = '\n' then sbGo true acc (c2 :: rest) else sbGo false [c1] (c2 :: rest) := rfl

lemma sbGo_block_sep : ∀ (l : List Char), noDouble l → l.getLast? ≠ some '\n' →
    ∀ (acc t : List Char),
      sbGo false acc (l ++ '\n' :: '\n' :: t) = (acc.reverse ++ l) :: sbGo true [] t := by
  intro l
  induction l with
  | nil =>
      intro _ _ acc t
      rw [List.nil_append, sbGo_false_cons2, if_pos ⟨rfl, rfl⟩, List.append_nil]
  | cons c l ih =>
      intro hnd hlast acc t
      cases l with
      | nil =>
          have hc : c ≠ '\n' := by simpa using hlast
          rw [List.cons_append, List.nil_append, sbGo_false_cons2,
            if_neg (fun hh => hc hh.1), sbGo_false_cons2, if_pos ⟨rfl, rfl⟩,
            List.reverse_cons]
      | cons c2 l2 =>
          have hc12 : ¬(c = '\n' ∧ c2 = '\n') := (List.chain'_cons.mp hnd).1
          rw [List.cons_append, List.cons_append, sbGo_false_cons2, if_neg hc12,
            ← List.cons_append,
            ih (List.chain'_cons.mp hnd).2 (by simpa using hlast) (c :: acc) t,
            List.reverse_cons]
          simp

lemma sbGo_block_last : ∀ (l : List Char), noDouble l →
    ∀ acc, sbGo false acc l = [acc.reverse ++ l] := by
  intro l
  induction l with
  | nil => intro _ acc; rw [sbGo_false_nil, List.append_nil]
  | cons c l ih =>
      intro hnd acc
      cases l with
      | nil => rw [sbGo_false_one, List.reverse_cons]
      | cons c2 l2 =>
          have hc12 : ¬(c = '\n' ∧ c2 = '\n') := (List.chain'_cons.mp hnd).1
          rw [sbGo_false_cons2, if_neg hc12, ih (List.chain'_cons.mp hnd).2 (c :: acc),
            List.reverse_cons]
          simp

lemma sbGo_skip_start {c : Char} (hc : c ≠ '\n') (t acc : List Char) :
    sbGo true acc (c :: t) = sbGo false [c] t := by
  cases t with
  | nil => rw [sbGo_true_one, if_neg hc, sbGo_false_nil, List.reverse_cons]; rfl
  | cons c2 rest => rw [sbGo_true_cons2, if_neg hc]

lemma sbGo_false_start {c : Char} (hc : c ≠ '\n') (t : List Char) :
    sbGo false [] (c :: t) = sbGo false [c] t := by
  cases t with
  | nil => rw [sbGo_false_one, sbGo_false_nil]
  | cons c2 rest => rw [sbGo_false_cons2, if_neg (fun hh => hc hh.1)]

lemma head?_append_left {α} {l : List α} (h : l ≠ []) (t : List α) :
    (l ++ t).head? = l.head? := by
  cases l with
  | nil => cases h rfl
  | cons a l => rfl

lemma noDouble_snoc {u : List Char} {c : Char} (hu : noDouble u)
    (hb : ∀ x, u.getLast? = some x → ¬(x = '\n' ∧ c = '\n')) :
    noDouble (u ++ [c]) := by
  rw [noDouble, List.chain'_append]
  refine ⟨hu, List.chain'_singleton c, ?_⟩
  intro x hx y hy
  simp only [List.head?_cons, Option.mem_def, Option.some.injEq] at hy
  subst hy
  exact hb x hx

lemma sbGo_props : ∀ (n : Nat) (s : List Char) (mode : Bool) (acc : List Char),
    s.length ≤ n →
    (mode = false → noDouble acc.reverse) →
    (mode = false → ∀ a c, acc.head? = some a → s.head? = some c →
      ¬(a = '\n' ∧ c = '\n')) →
    (∀ b ∈ sbGo mode acc s, noDouble b) ∧
    (∀ b ∈ (sbGo mode acc s).tail, b.head? ≠ some '\n') ∧
    (∀ b ∈ (sbGo mode acc s).dropLast, b.getLast? ≠ some '\n') ∧
    (mode = true → ∀ b ∈ sbGo mode acc s, b.head? ≠ some '\n') ∧
    sbGo mode acc s ≠ [] ∧
    (mode = false → acc ≠ [] → ∀ b, (sbGo mode acc s).head? = some b →
      b.head? = acc.reverse.head?) := by
  intro n
  induction n with
  | zero =>
      intro s mode acc hlen hnd hbd
      have hs : s = [] := List.length_eq_zero.mp (Nat.le_zero.mp hlen)
      subst hs
      cases mode with
      | true =>
          rw [sbGo_true_nil]
          refine ⟨?_, ?_, ?_, ?_, ?_, ?_⟩ <;> simp [noDouble]
      | false =>
          rw [sbGo_false_nil]
          refine ⟨?_, ?_, ?_, ?_, ?_, ?_⟩
          · intro b hb
            rw [List.mem_singleton] at hb
            subst hb
            exact hnd rfl
          · simp
          · simp
          · simp
          · simp
          · intro _ _ b hb
            simp only [List.head?_cons, Option.some.injEq] at hb
            subst hb
            rfl
  | succ n ih =>
      intro s mode acc hlen hnd hbd
      cases s with
      | nil =>
          cases mode with
          | true =>
              rw [sbGo_true_nil]
              refine ⟨?_, ?_, ?_, ?_, ?_, ?_⟩ <;> simp [noDouble]
          | false =>
              rw [sbGo_false_nil]
              refine ⟨?_, ?_, ?_, ?_, ?_, ?_⟩
              · intro b hb
                rw [List.mem_singleton] at hb
                subst hb
                exact hnd rfl
              · simp
              · simp
              · simp
              · simp
              · intro _ _ b hb
                simp only [List.head?_cons, Option.some.injEq] at hb
                subst hb
                rfl
      | cons c1 srest =>
          cases srest with
          | nil =>
              cases mode with
              | true =>
                  rw [sbGo_true_one]
                  by_cases hc : c1 = '\n'
                  · rw [if_pos hc]
                    refine ⟨?_, ?_, ?_, ?_, ?_, ?_⟩ <;> simp [noDouble]
                  · rw [if_neg hc]
                    refine ⟨?_, ?_, ?_, ?_, ?_, ?_⟩
                    · intro b hb
                      rw [List.mem_singleton] at hb
                      subst hb
                      exact List.chain'_singleton c1
                    · simp
                    · simp
                    · intro _ b hb
                      rw [List.mem_singleton] at hb
                      subst hb
                      simp [hc]
                    · simp
                    · simp
              | false =>
                  rw [sbGo_false_one, List.reverse_cons]
                  refine ⟨?_, ?_, ?_, ?_, ?_, ?_⟩
                  · intro b hb
                    rw [List.mem_singleton] at hb
                    subst hb
                    refine noDouble_snoc (hnd rfl) ?_
                    intro x hx hxc
                    rw [List.getLast?_reverse] at hx
                    exact hbd rfl x c1 hx rfl hxc
                  · simp
                  · simp
                  · simp
                  · simp
                  · intro _ hacc b hb
                    simp only [List.head?_cons, Option.some.injEq] at hb
                    subst hb
                    exact head?_append_left (by simpa using hacc) [c1]
          | cons c2 rest =>
              have hlen2 : (c2 :: rest).length ≤ n := by
                simp only [List.length_cons] at hlen ⊢
                omega
              have hlenr : rest.length ≤ n := by
                simp only [List.length_cons] at hlen
                omega
              cases mode with
              | true =>
                  rw [sbGo_true_cons2]
                  by_cases hc : c1 = '\n'
                  · rw [if_pos hc]
                    have := ih (c2 :: rest) true acc hlen2 (by simp) (by simp)
                    exact ⟨this.1, this.2.1, this.2.2.1, this.2.2.2.1, this.2.2.2.2.1,
                      by simp⟩
                  · rw [if_neg hc]
                    have hrec := ih (c2 :: rest) false [c1] hlen2
                      (fun _ => List.chain'_singleton c1)
                      (by
                        intro _ a c ha hc'
                        simp only [List.head?_cons, Option.some.injEq] at ha hc'
                        subst ha
                        exact fun hx => hc hx.1)
                    refine ⟨hrec.1, hrec.2.1, hrec.2.2.1, ?_, hrec.2.2.2.2.1, by simp⟩
                    intro _ b hb
                    obtain ⟨o, os, ho⟩ : ∃ o os, sbGo false [c1] (c2 :: rest) = o :: os := by
                      cases hh : sbGo false [c1] (c2 :: rest) with
                      | nil => exact absurd hh hrec.2.2.2.2.1
                      | cons o os => exact ⟨o, os, rfl⟩
                    rw [ho] at hb
                    rcases List.mem_cons.mp hb with rfl | hb
                    · have := hrec.2.2.2.2.2 rfl (by simp) b (by rw [ho]; rfl)
                      rw [this]
                      simp [hc]
                    · exact hrec.2.1 b (by rw [ho]; exact hb)
              | false =>
                  rw [sbGo_false_cons2]
                  by_cases hp : c1 = '\n' ∧ c2 = '\n'
                  · rw [if_pos hp]
                    have hrec := ih rest true [] hlenr (by simp) (by simp)
                    have haccl : ∀ x, acc.reverse.getLast? = some x → x ≠ '\n' := by
                      intro x hx
                      rw [List.getLast?_reverse] at hx
                      intro hxn
                      exact hbd rfl x c1 hx rfl ⟨hxn, hp.1⟩
                    refine ⟨?_, ?_, ?_, ?_, ?_, ?_⟩
                    · intro b hb
                      rcases List.mem_cons.mp hb with rfl | hb
                      · exact hnd rfl
                      · exact hrec.1 b hb
                    · intro b hb
                      exact hrec.2.2.2.1 rfl b hb
                    · intro b hb
                      rw [List.dropLast_cons_of_ne_nil hrec.2.2.2.2.1] at hb
                      rcases List.mem_cons.mp hb with rfl | hb
                      · intro hl
                        exact haccl '\n' hl rfl
                      · exact hrec.2.2.1 b hb
                    · simp
                    · simp
                    · intro _ _ b hb
                      simp only [List.head?_cons, Option.some.injEq] at hb
                      subst hb
                      rfl
                  · rw [if_neg hp]
                    have hrec := ih (c2 :: rest) false (c1 :: acc) hlen2
                      (by
                        intro _
                        rw [List.reverse_cons]
                        refine noDouble_snoc (hnd rfl) ?_
                        intro x hx hxc
                        rw [List.getLast?_reverse] at hx
                        exact hbd rfl x c1 hx rfl hxc)
                      (by
                        intro _ a c ha hc'
                        simp only [List.head?_cons, Option.some.injEq] at ha hc'
                        subst ha
                        subst hc'
                        exact hp)
                    refine ⟨hrec.1, hrec.2.1, hrec.2.2.1, by simp, hrec.2.2.2.2.1, ?_⟩
                    intro _ hacc b hb
                    have := hrec.2.2.2.2.2 rfl (by simp) b hb
                    rw [this, List.reverse_cons,
                      head?_append_left (by simpa using hacc) [c1]]

lemma splitBlocks_joinBlocks : ∀ (bs : List (List Char)), bs ≠ [] →
    (∀ b ∈ bs, noDouble b ∧ b ≠ []) →
    (∀ b ∈ bs.tail, b.head? ≠ some '\n') →
    (∀ b ∈ bs.dropLast, b.getLast? ≠ some '\n') →
    splitBlocks (joinBlocks bs) = bs := by
  intro bs
  induction bs with
  | nil => intro h; cases h rfl
  | cons b bs ih =>
      intro _ hall htail hlast
      cases bs with
      | nil =>
          show splitBlocks b = [b]
          unfold splitBlocks
          rw [sbGo_block_last b (hall b (List.mem_cons_self b [])).1 []]
          rfl
      | cons b2 bs2 =>
          unfold splitBlocks
          rw [show joinBlocks (b :: b2 :: bs2) = b ++ '\n' :: '\n' :: joinBlocks (b2 :: bs2)
            from rfl]
          have hbmem : b ∈ (b :: b2 :: bs2).dropLast := by
            rw [List.dropLast_cons₂]
            exact List.mem_cons_self b _
          rw [sbGo_block_sep b (hall b (List.mem_cons_self b _)).1 (hlast b hbmem) []
            (joinBlocks (b2 :: bs2))]
          obtain ⟨c, b2', hb2⟩ : ∃ c b2', b2 = c :: b2' := by
            cases hb : b2 with
            | nil => exact absurd (hb ▸ (hall b2 (List.mem_cons_of_mem b
                (List.mem_cons_self b2 bs2))).2) (by simp [hb])
            | cons x xs => exact ⟨x, xs, rfl⟩
          have hc : c ≠ '\n' := by
            have := htail b2 (List.mem_cons_self b2 bs2)
            rw [hb2] at this
            simpa using this
          obtain ⟨w, hw⟩ : ∃ w, joinBlocks (b2 :: bs2) = c :: w := by
            cases bs2 with
            | nil => exact ⟨b2', by rw [show joinBlocks [b2] = b2 from rfl, hb2]⟩
            | cons b3 bs3 =>
                exact ⟨b2' ++ '\n' :: '\n' :: joinBlocks (b3 :: bs3),
                  by rw [show joinBlocks (b2 :: b3 :: bs3) =
                      b2 ++ '\n' :: '\n' :: joinBlocks (b3 :: bs3) from rfl, hb2]; rfl⟩
          rw [hw, sbGo_skip_start hc, ← sbGo_false_start hc, ← hw]
          have hrec : sbGo false [] (joinBlocks (b2 :: bs2)) = b2 :: bs2 := by
            have := ih (by simp) (fun x hx => hall x (List.mem_cons_of_mem b hx))
              (fun x hx => htail x (List.mem_cons_of_mem b2 hx))
              (fun x hx => hlast x (by rw [List.dropLast_cons₂]; exact List.mem_cons_of_mem b hx))
            exact this
          rw [hrec]
          simp

lemma splitBlocks_props (s : List Char) :
    (∀ b ∈ splitBlocks s, noDouble b) ∧
    (∀ b ∈ (splitBlocks s).tail, b.head? ≠ some '\n') ∧
    (∀ b ∈ (splitBlocks s).dropLast, b.getLast? ≠ some '\n') ∧
    splitBlocks s ≠ [] := by
  have h := sbGo_props s.length s false [] (le_refl _)
    (fun _ => by simp [noDouble])
    (fun _ a c ha => by simp at ha)
  exact ⟨h.1, h.2.1, h.2.2.1, h.2.2.2.2.1⟩

/-! ### Newline-skeleton preservation -/

/-- Two character lists with the same length and the same newline
positions. -/
inductive sameNl : List Char → List Char → Prop where
  | nil : sameNl [] []
  | nl {a b : List Char} : sameNl a b → sameNl ('\n' :: a) ('\n' :: b)
  | other {c d : Char} {a b : List Char} : c ≠ '\n' → d ≠ '\n' → sameNl a b →
      sameNl (c :: a) (d :: b)

lemma sameNl_refl : ∀ l : List Char, sameNl l l := by
  intro l
  induction l with
  | nil => exact .nil
  | cons c r ih =>
      by_cases hc : c = '\n'
      · subst hc; exact .nl ih
      · exact .other hc hc ih

lemma sameNl_append : ∀ {a b c d : List Char}, sameNl a b → sameNl c d →
    sameNl (a ++ c) (b ++ d) := by
  intro a b c d hab hcd
  induction hab with
  | nil => exact hcd
  | nl _ ih => exact .nl ih
  | other hc hd _ ih => exact .other hc hd ih

lemma sameNl_nil_iff {a b : List Char} (h : sameNl a b) : a = [] ↔ b = [] := by
  cases h with
  | nil => simp
  | nl _ => simp
  | other _ _ _ => simp

lemma sameNl_head {a b : List Char} (h : sameNl a b) :
    b.head? = some '\n' → a.head? = some '\n' := by
  cases h with
  | nil => simp
  | nl _ => simp
  | other hc hd _ =>
      intro hh
      simp only [List.head?_cons, Option.some.injEq] at hh
      exact absurd hh hd

lemma sameNl_last {a b : List Char} (h : sameNl a b) :
    b.getLast? = some '\n' → a.getLast? = some '\n' := by
  induction h with
  | nil => simp
  | nl hab ih =>
      rename_i a' b'
      intro hh
      cases hb' : b' with
      | nil =>
          have ha' : a' = [] := (sameNl_nil_iff hab).mpr hb'
          subst ha'
          simp
      | cons x xs =>
          have ha' : a' ≠ [] := by
            intro he
            exact (by simpa [hb'] using (sameNl_nil_iff hab).mp he)
          obtain ⟨y, ys, hay⟩ : ∃ y ys, a' = y :: ys := by
            cases a' with
            | nil => cases ha' rfl
            | cons y ys => exact ⟨y, ys, rfl⟩
          have hres : a'.getLast? = some '\n' := ih (by
            rw [hb'] at hh ⊢
            rw [List.getLast?_cons_cons] at hh
            exact hh)
          rw [hay] at hres
          rw [hay, List.getLast?_cons_cons]
          exact hres
  | other hc hd hab ih =>
      rename_i c d a' b'
      intro hh
      cases hb' : b' with
      | nil =>
          have ha' : a' = [] := (sameNl_nil_iff hab).mpr hb'
          subst ha'
          rw [hb'] at hh
          simp only [List.getLast?_singleton, Option.some.injEq] at hh
          exact absurd hh hd
      | cons x xs =>
          have ha' : a' ≠ [] := by
            intro he
            exact (by simpa [hb'] using (sameNl_nil_iff hab).mp he)
          obtain ⟨y, ys, hay⟩ : ∃ y ys, a' = y :: ys := by
            cases a' with
            | nil => cases ha' rfl
            | cons y ys => exact ⟨y, ys, rfl⟩
          have hres : a'.getLast? = some '\n' := ih (by
            rw [hb'] at hh ⊢
            rw [List.getLast?_cons_cons] at hh
            exact hh)
          rw [hay] at hres
          rw [hay, List.getLast?_cons_cons]
          exact hres

lemma sameNl_noDouble : ∀ {a b : List Char}, sameNl a b → noDouble a → noDouble b := by
  intro a b h
  induction h with
  | nil => intro; exact List.chain'_nil
  | nl hab ih =>
      rename_i a' b'
      intro hnd
      rw [noDouble, List.chain'_cons']
      rw [noDouble, List.chain'_cons'] at hnd
      refine ⟨?_, ih hnd.2⟩
      intro y hy
      simp only [Option.mem_def] at hy
      intro hcontra
      have hb' : b'.head? = some '\n' := by rw [hy, hcontra.2]
      have ha' : a'.head? = some '\n' := sameNl_head hab hb'
      exact hnd.1 '\n' ha' ⟨rfl, rfl⟩
  | other hc hd hab ih =>
      rename_i c d a' b'
      intro hnd
      rw [noDouble, List.chain'_cons']
      rw [noDouble, List.chain'_cons'] at hnd
      refine ⟨?_, ih hnd.2⟩
      intro y _ hcontra
      exact hd hcontra.1

/-! ### Cue-processing lemmas -/

lemma dotsToCommas_cons (c : Char) (l : List Char) :
    dotsToCommas (c :: l) = (if c = '.' then ',' else c) :: dotsToCommas l := rfl

lemma dotsToCommas_no_nl {l : List Char} (h : '\n' ∉ l) : '\n' ∉ dotsToCommas l := by
  intro hm
  obtain ⟨x, hx, hgx⟩ := List.mem_map.mp hm
  by_cases hd : x = '.'
  · rw [if_pos hd] at hgx
    exact absurd hgx (by decide)
  · rw [if_neg hd] at hgx
    exact h (hgx ▸ hx)

lemma sameNl_dots : ∀ l : List Char, sameNl l (dotsToCommas l) := by
  intro l
  induction l with
  | nil => exact .nil
  | cons c r ih =>
      rw [dotsToCommas_cons]
      by_cases hc : c = '\n'
      · subst hc
        rw [if_neg (by decide)]
        exact .nl ih
      · by_cases hd : c = '.'
        · rw [if_pos hd]
          exact .other hc (by decide) ih
        · rw [if_neg hd]
          exact .other hc hc ih

lemma dots_idem (l : List Char) : dotsToCommas (dotsToCommas l) = dotsToCommas l := by
  unfold dotsToCommas
  rw [List.map_map]
  apply List.map_congr_left
  intro c _
  by_cases hc : c = '.'
  · simp [hc]
  · simp [hc]

lemma dots_no_dot (l : List Char) : '.' ∉ dotsToCommas l := by
  intro hm
  obtain ⟨x, hx, hgx⟩ := List.mem_map.mp hm
  by_cases hd : x = '.'
  · rw [if_pos hd] at hgx
    exact absurd hgx (by decide)
  · rw [if_neg hd] at hgx
    exact hd (hgx ▸ rfl)

lemma dots_eq_of_no_comma : ∀ {l m : List Char}, dotsToCommas l = m →
    (∀ c ∈ m, c ≠ ',') → l = m := by
  intro l
  induction l with
  | nil => intro m h _; exact h
  | cons c r ih =>
      intro m h hm
      rw [dotsToCommas_cons] at h
      cases m with
      | nil => cases h
      | cons x xs =>
          obtain ⟨h1, h2⟩ := List.cons.inj h
          have hx : c = x := by
            by_cases hd : c = '.'
            · rw [if_pos hd] at h1
              exact absurd h1.symm (hm x (List.mem_cons_self x xs))
            · rwa [if_neg hd] at h1
          rw [hx, ih h2 (fun y hy => hm y (List.mem_cons_of_mem x hy))]

lemma hasArrow_cons (c : Char) (r : List Char) :
    hasArrow (c :: r) = (((c :: r).take 3 == ['-', '-', '>']) || hasArrow r) := rfl

lemma map_dots_take_arrow : ∀ t : List Char,
    (t.map (fun c => if c = '.' then ',' else c) = ['-', '-', '>']) ↔
      t = ['-', '-', '>'] := by
  intro t
  constructor
  · intro h
    have hdash : ∀ x : Char, (if x = '.' then ',' else x) = '-' → x = '-' := by
      intro x
      by_cases hd : x = '.'
      · rw [if_pos hd]; intro hh; exact absurd hh (by decide)
      · rw [if_neg hd]; exact id
    have hgt : ∀ x : Char, (if x = '.' then ',' else x) = '>' → x = '>' := by
      intro x
      by_cases hd : x = '.'
      · rw [if_pos hd]; intro hh; exact absurd hh (by decide)
      · rw [if_neg hd]; exact id
    rcases t with _ | ⟨a, _ | ⟨b, _ | ⟨c, _ | ⟨d, t'⟩⟩⟩⟩ <;> simp at h
    obtain ⟨h1, h2, h3⟩ := h
    rw [hdash a h1, hdash b h2, hgt c h3]
  · intro h
    subst h
    rfl

lemma hasArrow_dots : ∀ l : List Char, hasArrow (dotsToCommas l) = hasArrow l := by
  intro l
  induction l with
  | nil => rfl
  | cons c r ih =>
      rw [dotsToCommas_cons, hasArrow_cons, hasArrow_cons, ih]
      have htake : ((if c = '.' then ',' else c) :: dotsToCommas r).take 3 =
          ((c :: r).take 3).map (fun x => if x = '.' then ',' else x) := by
        rw [show ((if c = '.' then ',' else c) :: dotsToCommas r) =
          dotsToCommas (c :: r) from rfl]
        unfold dotsToCommas
        rw [List.map_take]
      rw [htake]
      rcases hb : hasArrow r with _ | _
      · simp only [Bool.or_false]
        rw [Bool.eq_iff_iff]
        simp only [beq_iff_eq]
        exact map_dots_take_arrow _
      · simp

lemma mem_gt_of_hasArrow : ∀ {l : List Char}, hasArrow l = true → '>' ∈ l := by
  intro l
  induction l with
  | nil => intro h; cases h
  | cons c r ih =>
      intro h
      rw [hasArrow_cons, Bool.or_eq_true] at h
      rcases h with h | h
      · rw [beq_iff_eq] at h
        rcases r with _ | ⟨a, _ | ⟨b, r'⟩⟩ <;> simp at h
        obtain ⟨rfl, rfl, rfl⟩ := h
        simp
      · exact List.mem_cons_of_mem c (ih h)

lemma findTimeIdx_cons (l : List Char) (ls : List (List Char)) :
    findTimeIdx (l :: ls) =
      if hasArrow l then some 0 else (findTimeIdx ls).map (· + 1) := rfl

lemma findTimeIdx_none_iff : ∀ lines : List (List Char),
    findTimeIdx lines = none ↔ ∀ l ∈ lines, hasArrow l = false := by
  intro lines
  induction lines with
  | nil => simp [findTimeIdx]
  | cons l ls ih =>
      rw [findTimeIdx_cons]
      by_cases hl : hasArrow l
      · rw [if_pos hl]
        simp [hl]
      · rw [if_neg hl]
        rw [Option.map_eq_none', ih]
        constructor
        · intro h x hx
          rcases List.mem_cons.mp hx with rfl | hx
          · simpa using hl
          · exact h x hx
        · intro h x hx
          exact h x (List.mem_cons_of_mem l hx)

lemma findTimeIdx_some_spec : ∀ (lines : List (List Char)) (i : Nat),
    findTimeIdx lines = some i →
    i < lines.length ∧ hasArrow (lines.getD i []) = true ∧
      ∀ j, j < i → hasArrow (lines.getD j []) = false := by
  intro lines
  induction lines with
  | nil => intro i h; cases h
  | cons l ls ih =>
      intro i h
      rw [findTimeIdx_cons] at h
      by_cases hl : hasArrow l
      · rw [if_pos hl] at h
        obtain rfl := Option.some.inj h
        exact ⟨by simp, by simpa using hl, by omega⟩
      · rw [if_neg hl] at h
        obtain ⟨i', hi', rfl⟩ := Option.map_eq_some'.mp h
        obtain ⟨h1, h2, h3⟩ := ih i' hi'
        refine ⟨by simpa using h1, by simpa using h2, ?_⟩
        intro j hj
        cases j with
        | zero => simpa using hl
        | succ j' => simpa using h3 j' (by omega)

lemma findTimeIdx_some_intro : ∀ (lines : List (List Char)) (i : Nat),
    i < lines.length → hasArrow (lines.getD i []) = true →
    (∀ j, j < i → hasArrow (lines.getD j []) = false) →
    findTimeIdx lines = some i := by
  intro lines
  induction lines with
  | nil => intro i h; simp at h
  | cons l ls ih =>
      intro i hi ha hmin
      cases i with
      | zero => rw [findTimeIdx_cons, if_pos (by simpa using ha)]
      | succ i' =>
          have hl : hasArrow l = false := by simpa using hmin 0 (by omega)
          rw [findTimeIdx_cons, if_neg (by simp [hl])]
          rw [ih i' (by simpa using hi) (by simpa using ha)
            (fun j hj => by simpa using hmin (j + 1) (by omega))]
          rfl

lemma getD_set_self : ∀ (l : List (List Char)) (i : Nat) (x : List Char),
    i < l.length → (l.set i x).getD i [] = x := by
  intro l
  induction l with
  | nil => intro i x h; simp at h
  | cons a l ih =>
      intro i x h
      cases i with
      | zero => rfl
      | succ i' => exact ih i' x (by simpa using h)

lemma getD_set_ne : ∀ (l : List (List Char)) (i j : Nat) (x : List Char),
    j ≠ i → (l.set i x).getD j [] = l.getD j [] := by
  intro l
  induction l with
  | nil => intro i j x _; rfl
  | cons a l ih =>
      intro i j x h
      cases i with
      | zero =>
          cases j with
          | zero => cases h rfl
          | succ j' => rfl
      | succ i' =>
          cases j with
          | zero => rfl
          | succ j' => exact ih i' j' x (by omega)

lemma mem_set_of_lt : ∀ (l : List (List Char)) (i : Nat) (x : List Char),
    i < l.length → x ∈ l.set i x := by
  intro l
  induction l with
  | nil => intro i x h; simp at h
  | cons a l ih =>
      intro i x h
      cases i with
      | zero => exact List.mem_cons_self x l
      | succ i' => exact List.mem_cons_of_mem a (ih i' x (by simpa using h))

lemma mem_set_cases : ∀ (l : List (List Char)) (i : Nat) (x y : List Char),
    y ∈ l.set i x → y ∈ l ∨ y = x := by
  intro l
  induction l with
  | nil => intro i x y h; simp [List.set] at h
  | cons a l ih =>
      intro i x y h
      cases i with
      | zero =>
          rcases List.mem_cons.mp h with rfl | h
          · exact Or.inr rfl
          · exact Or.inl (List.mem_cons_of_mem a h)
      | succ i' =>
          rcases List.mem_cons.mp h with rfl | h
          · exact Or.inl (List.mem_cons_self y l)
          · rcases ih i' x y h with h | h
            · exact Or.inl (List.mem_cons_of_mem a h)
            · exact Or.inr h

lemma mem_joinNl : ∀ {lines : List (List Char)} {l : List Char} {c : Char},
    l ∈ lines → c ∈ l → c ∈ joinNl lines := by
  intro lines
  induction lines with
  | nil => intro l c h; simp at h
  | cons x ls ih =>
      intro l c hl hc
      cases ls with
      | nil =>
          rw [List.mem_singleton] at hl
          subst hl
          exact hc
      | cons y ys =>
          rw [show joinNl (x :: y :: ys) = x ++ '\n' :: joinNl (y :: ys) from rfl]
          rcases List.mem_cons.mp hl with rfl | hl
          · exact List.mem_append_left _ hc
          · exact List.mem_append_right _ (List.mem_cons_of_mem _ (ih hl hc))

lemma processBlock_eq_of_some {b : List Char} {i : Nat}
    (h : findTimeIdx (splitNl b) = some i) :
    processBlock b =
      joinNl ((splitNl b).set i (dotsToCommas ((splitNl b).getD i []))) := by
  unfold processBlock
  rw [h]

lemma processBlock_eq_nil {b : List Char} (h : findTimeIdx (splitNl b) = none) :
    processBlock b = [] := by
  unfold processBlock
  rw [h]

lemma gt_mem_processBlock {b : List Char} {i : Nat}
    (h : findTimeIdx (splitNl b) = some i) : '>' ∈ processBlock b := by
  obtain ⟨hlt, harr, _⟩ := findTimeIdx_some_spec _ _ h
  rw [processBlock_eq_of_some h]
  exact mem_joinNl (mem_set_of_lt _ _ _ hlt)
    (mem_gt_of_hasArrow (by rw [hasArrow_dots]; exact harr))

lemma vtt_filter_exchange (blocks : List (List Char)) :
    (blocks.map processBlock).filter (fun b => !(trimChars b).isEmpty) =
      (blocks.filter (fun b => (splitNl b).any (fun l => hasArrow l))).map
        processBlock := by
  rw [List.filter_map]
  congr 1
  apply List.filter_congr
  intro b _
  show (!(trimChars (processBlock b)).isEmpty) = (splitNl b).any (fun l => hasArrow l)
  cases ha : (splitNl b).any (fun l => hasArrow l) with
  | false =>
      have hnone : findTimeIdx (splitNl b) = none := by
        rw [findTimeIdx_none_iff]
        intro l hl
        have := List.any_eq_false.mp ha l hl
        simpa using this
      rw [processBlock_eq_nil hnone]
      rfl
  | true =>
      have hne : findTimeIdx (splitNl b) ≠ none := by
        intro hnone
        obtain ⟨l, hl, hp⟩ := List.any_eq_true.mp ha
        rw [(findTimeIdx_none_iff _).mp hnone l hl] at hp
        cases hp
      obtain ⟨i, hi⟩ := Option.ne_none_iff_exists'.mp hne
      have hgt := gt_mem_processBlock hi
      have hneq := trimChars_ne_nil_of_mem hgt (by decide)
      have h2 : (trimChars (processBlock b)).isEmpty = false := by
        cases hh : (trimChars (processBlock b)).isEmpty with
        | false => rfl
        | true => exact absurd (List.isEmpty_iff.mp hh) hneq
      rw [h2]
      rfl

lemma vttToSrt_eq_of_ne {t : String} (ht : t ≠ "") :
    vttToSrt t = String.mk (joinBlocks
      (((splitBlocks (stripHeader t.data)).map processBlock).filter
        (fun b => !(trimChars b).isEmpty))) := by
  unfold vttToSrt
  rw [if_neg ht]

/-! ### Claim C6: malformed blocks are dropped -/

/-- Claim C6: the converter's output is built exclusively from the
blocks that contain a time-range line; every block with no `-->` line is
absent from the output.  The converter is a total function (as embedded
it cannot raise), returning best-effort output or the empty string. -/
theorem claim6_malformed_dropped (s : String) :
    vttToSrt s = String.mk (joinBlocks
      (((splitBlocks (stripHeader s.data)).filter
        (fun b => (splitNl b).any (fun l => hasArrow l))).map processBlock)) := by
  by_cases hs : s = ""
  · subst hs
    decide
  · unfold vttToSrt
    rw [if_neg hs, vtt_filter_exchange]

/-! ### Claim C10: idempotence -/

lemma getD_mem_of_lt : ∀ (l : List (List Char)) (i : Nat),
    i < l.length → l.getD i [] ∈ l := by
  intro l
  induction l with
  | nil => intro i h; simp at h
  | cons a l ih =>
      intro i h
      cases i with
      | zero => exact List.mem_cons_self a l
      | succ i' => exact List.mem_cons_of_mem a (ih i' (by simpa using h))

lemma sameNl_joinNl_set : ∀ (lines : List (List Char)) (i : Nat),
    sameNl (joinNl lines)
      (joinNl (lines.set i (dotsToCommas (lines.getD i [])))) := by
  intro lines
  induction lines with
  | nil => intro i; exact sameNl_refl _
  | cons l ls ih =>
      intro i
      cases i with
      | zero =>
          cases ls with
          | nil => exact sameNl_dots l
          | cons y ys =>
              rw [show (l :: y :: ys).set 0 (dotsToCommas ((l :: y :: ys).getD 0 [])) =
                dotsToCommas l :: y :: ys from rfl]
              rw [show joinNl (l :: y :: ys) = l ++ '\n' :: joinNl (y :: ys) from rfl]
              rw [show joinNl (dotsToCommas l :: y :: ys) =
                dotsToCommas l ++ '\n' :: joinNl (y :: ys) from rfl]
              exact sameNl_append (sameNl_dots l) (sameNl_refl _)
      | succ i' =>
          cases ls with
          | nil => exact sameNl_refl _
          | cons y ys =>
              rw [show (l :: y :: ys).set (i' + 1)
                  (dotsToCommas ((l :: y :: ys).getD (i' + 1) [])) =
                l :: ((y :: ys).set i' (dotsToCommas ((y :: ys).getD i' []))) from rfl]
              obtain ⟨z, zs, hz⟩ : ∃ z zs,
                  (y :: ys).set i' (dotsToCommas ((y :: ys).getD i' [])) = z :: zs := by
                cases i' with
                | zero => exact ⟨_, _, rfl⟩
                | succ j => exact ⟨_, _, rfl⟩
              rw [show joinNl (l :: y :: ys) = l ++ '\n' :: joinNl (y :: ys) from rfl, hz]
              rw [show joinNl (l :: z :: zs) = l ++ '\n' :: joinNl (z :: zs) from rfl, ← hz]
              exact sameNl_append (sameNl_refl l) (.nl (ih i'))

lemma sameNl_processBlock {b : List Char} {i : Nat}
    (h : findTimeIdx (splitNl b) = some i) : sameNl b (processBlock b) := by
  rw [processBlock_eq_of_some h]
  conv_lhs => rw [← joinNl_splitNl b]
  exact sameNl_joinNl_set (splitNl b) i

lemma processBlock_idem {b : List Char} {i : Nat}
    (h : findTimeIdx (splitNl b) = some i) :
    processBlock (processBlock b) = processBlock b := by
  obtain ⟨hlt, harr, hmin⟩ := findTimeIdx_some_spec _ _ h
  have h1 := processBlock_eq_of_some h
  have hnl' : ∀ l ∈ (splitNl b).set i (dotsToCommas ((splitNl b).getD i [])),
      '\n' ∉ l := by
    intro l hl
    rcases mem_set_cases _ _ _ _ hl with hl | rfl
    · exact splitNl_no_nl b l hl
    · exact dotsToCommas_no_nl (splitNl_no_nl b _ (getD_mem_of_lt _ _ hlt))
  have hne' : (splitNl b).set i (dotsToCommas ((splitNl b).getD i [])) ≠ [] := by
    intro he
    apply splitNl_ne_nil b
    cases hsb : splitNl b with
    | nil => rfl
    | cons x xs =>
        rw [hsb] at he
        cases i <;> simp [List.set] at he
  have h2 : splitNl (processBlock b) =
      (splitNl b).set i (dotsToCommas ((splitNl b).getD i [])) := by
    rw [h1]
    exact splitNl_joinNl _ hne' hnl'
  have h3 : findTimeIdx ((splitNl b).set i (dotsToCommas ((splitNl b).getD i []))) =
      some i := by
    apply findTimeIdx_some_intro
    · rw [List.length_set]; exact hlt
    · rw [getD_set_self _ _ _ hlt, hasArrow_dots]; exact harr
    · intro j hj
      rw [getD_set_ne _ _ _ _ (by omega)]
      exact hmin j hj
  have h3' : findTimeIdx (splitNl (processBlock b)) = some i := by
    rw [h2]; exact h3
  have h4 := processBlock_eq_of_some h3'
  rw [h2] at h4
  rw [h4, getD_set_self _ _ _ hlt, dots_idem, List.set_set, ← h1]

lemma mem_tail_map_filter {α β : Type} (f : α → β) (q : α → Bool) :
    ∀ (l : List α) (x : β), x ∈ ((l.filter q).map f).tail →
      ∃ b ∈ l.tail, x = f b ∧ q b = true := by
  intro l
  induction l with
  | nil => intro x h; simp at h
  | cons a l ih =>
      intro x h
      rw [List.filter_cons] at h
      by_cases hq : q a
      · rw [if_pos hq, List.map_cons] at h
        simp only [List.tail_cons] at h
        obtain ⟨b, hb, rfl⟩ := List.mem_map.mp h
        exact ⟨b, List.mem_of_mem_filter hb, rfl, List.of_mem_filter hb⟩
      · rw [if_neg hq] at h
        obtain ⟨b, hb, hfb, hqb⟩ := ih x h
        exact ⟨b, (List.tail_sublist l).subset hb, hfb, hqb⟩

lemma mem_dropLast_map_filter {α β : Type} (f : α → β) (q : α → Bool) :
    ∀ (l : List α) (x : β), x ∈ ((l.filter q).map f).dropLast →
      ∃ b ∈ l.dropLast, x = f b ∧ q b = true := by
  intro l
  induction l with
  | nil => intro x h; simp at h
  | cons a l ih =>
      intro x h
      rw [List.filter_cons] at h
      by_cases hq : q a
      · rw [if_pos hq, List.map_cons] at h
        cases hFl : (l.filter q).map f with
        | nil =>
            rw [hFl] at h
            simp at h
        | cons y ys =>
            rw [hFl, List.dropLast_cons_of_ne_nil (by simp)] at h
            have hlne : l ≠ [] := by
              intro he
              rw [he] at hFl
              simp at hFl
            rcases List.mem_cons.mp h with rfl | h
            · refine ⟨a, ?_, rfl, hq⟩
              rw [List.dropLast_cons_of_ne_nil hlne]
              exact List.mem_cons_self a _
            · obtain ⟨b, hb, hfb, hqb⟩ := ih x (by rw [hFl]; exact h)
              refine ⟨b, ?_, hfb, hqb⟩
              rw [List.dropLast_cons_of_ne_nil hlne]
              exact List.mem_cons_of_mem a hb
      · rw [if_neg hq] at h
        obtain ⟨b, hb, hfb, hqb⟩ := ih x h
        have hlne : l ≠ [] := by
          intro he
          subst he
          simp at hb
        refine ⟨b, ?_, hfb, hqb⟩
        rw [List.dropLast_cons_of_ne_nil hlne]
        exact List.mem_cons_of_mem a hb

/-- Claim C10 counterexample: the converter is not idempotent.  On an
input whose first block has no time line and whose surviving block
begins with the literal `WEBVTT` line, the first conversion emits an
output that *starts* with the header token, and the second conversion
strips it. -/
theorem claim10_idempotence_cex :
    vttToSrt "x\n\nWEBVTT\na --> b" = "WEBVTT\na --> b" ∧
    vttToSrt (vttToSrt "x\n\nWEBVTT\na --> b") = "a --> b" ∧
    vttToSrt (vttToSrt "x\n\nWEBVTT\na --> b") ≠ vttToSrt "x\n\nWEBVTT\na --> b" := by
  refine ⟨by decide, by decide, by decide⟩

/-- Claim C10, amended: the converter is idempotent on every input whose
converted output is not itself captured by the leading-header pattern
(the anchored `WEBVTT`-then-whitespace-then-newline match).  This is the
only failure mode: when the output happens to begin with a `WEBVTT`
line, a second conversion additionally strips it. -/
theorem claim10_idempotent_amended (s : String)
    (h : stripHeader (vttToSrt s).data = (vttToSrt s).data) :
    vttToSrt (vttToSrt s) = vttToSrt s := by
  by_cases hs : s = ""
  · subst hs
    decide
  · have hout : vttToSrt s = String.mk (joinBlocks
        (((splitBlocks (stripHeader s.data)).filter
          (fun b => (splitNl b).any (fun l => hasArrow l))).map processBlock)) := by
      unfold vttToSrt
      rw [if_neg hs, vtt_filter_exchange]
    set blocks := splitBlocks (stripHeader s.data) with hblocks
    set kept := (blocks.filter (fun b => (splitNl b).any (fun l => hasArrow l))).map
      processBlock with hkept
    have hkeyB : ∀ x ∈ kept, ∃ b, b ∈ blocks ∧
        ((splitNl b).any (fun l => hasArrow l)) = true ∧ x = processBlock b := by
      intro x hx
      rw [hkept] at hx
      obtain ⟨b, hb, rfl⟩ := List.mem_map.mp hx
      exact ⟨b, (List.mem_filter.mp hb).1, (List.mem_filter.mp hb).2, rfl⟩
    have hsome : ∀ b : List Char, ((splitNl b).any (fun l => hasArrow l)) = true →
        ∃ i, findTimeIdx (splitNl b) = some i := by
      intro b ha
      cases hf : findTimeIdx (splitNl b) with
      | some i => exact ⟨i, rfl⟩
      | none =>
          obtain ⟨l, hl, hp⟩ := List.any_eq_true.mp ha
          rw [(findTimeIdx_none_iff _).mp hf l hl] at hp
          cases hp
    have hgtk : ∀ x ∈ kept, '>' ∈ x := by
      intro x hx
      obtain ⟨b, _, ha, rfl⟩ := hkeyB x hx
      obtain ⟨i, hi⟩ := hsome b ha
      exact gt_mem_processBlock hi
    have hndk : ∀ x ∈ kept, noDouble x ∧ x ≠ [] := by
      intro x hx
      obtain ⟨b, hbm, ha, hxb⟩ := hkeyB x hx
      obtain ⟨i, hi⟩ := hsome b ha
      refine ⟨?_, List.ne_nil_of_mem (hgtk x hx)⟩
      rw [hxb]
      exact sameNl_noDouble (sameNl_processBlock hi) ((splitBlocks_props _).1 b hbm)
    have htailk : ∀ x ∈ kept.tail, x.head? ≠ some '\n' := by
      intro x hx
      rw [hkept] at hx
      obtain ⟨b, hbt, rfl, hq⟩ := mem_tail_map_filter processBlock _ blocks x hx
      obtain ⟨i, hi⟩ := hsome b hq
      intro hh
      exact (splitBlocks_props (stripHeader s.data)).2.1 b hbt
        (sameNl_head (sameNl_processBlock hi) hh)
    have hlastk : ∀ x ∈ kept.dropLast, x.getLast? ≠ some '\n' := by
      intro x hx
      rw [hkept] at hx
      obtain ⟨b, hbt, rfl, hq⟩ := mem_dropLast_map_filter processBlock _ blocks x hx
      obtain ⟨i, hi⟩ := hsome b hq
      intro hh
      exact (splitBlocks_props (stripHeader s.data)).2.2.1 b hbt
        (sameNl_last (sameNl_processBlock hi) hh)
    have houtdata : (vttToSrt s).data = joinBlocks kept := by rw [hout]
    cases hkb : kept with
    | nil =>
        have hout0 : vttToSrt s = "" := by
          rw [hout, hkb]
          decide
        rw [hout0]
        decide
    | cons k0 ks =>
        have houtne : vttToSrt s ≠ "" := by
          intro he
          have hd : (vttToSrt s).data = [] := by rw [he]
          rw [houtdata, hkb] at hd
          have hk0 : '>' ∈ k0 := hgtk k0 (by rw [hkb]; exact List.mem_cons_self _ _)
          cases ks with
          | nil => exact List.ne_nil_of_mem hk0 hd
          | cons k1 ks' =>
              rw [show joinBlocks (k0 :: k1 :: ks') =
                k0 ++ '\n' :: '\n' :: joinBlocks (k1 :: ks') from rfl] at hd
              simp at hd
        have hsplit : splitBlocks (joinBlocks kept) = kept := by
          apply splitBlocks_joinBlocks kept (by rw [hkb]; simp) hndk htailk hlastk
        have hmapid : kept.map processBlock = kept := by
          calc kept.map processBlock
              = kept.map id := by
                apply List.map_congr_left
                intro x hx
                obtain ⟨b, _, ha, rfl⟩ := hkeyB x hx
                obtain ⟨i, hi⟩ := hsome b ha
                exact processBlock_idem hi
            _ = kept := List.map_id _
        have hfilterid : kept.filter (fun b => !(trimChars b).isEmpty) = kept := by
          apply List.filter_eq_self.mpr
          intro x hx
          have hne := trimChars_ne_nil_of_mem (hgtk x hx) (by decide)
          cases hh : (trimChars x).isEmpty with
          | false => rfl
          | true => exact absurd (List.isEmpty_iff.mp hh) hne
        rw [vttToSrt_eq_of_ne houtne, h, houtdata, hsplit, hmapid, hfilterid,
          ← houtdata]

/-! ### Claim C5: well-formed two-cue conversion -/

lemma mem_of_getLastSome : ∀ (l : List Char) (x : Char), l.getLast? = some x → x ∈ l := by
  intro l
  induction l with
  | nil => intro x h; cases h
  | cons c r ih =>
      intro x h
      cases r with
      | nil =>
          simp only [List.getLast?_singleton, Option.some.injEq] at h
          subst h
          exact List.mem_cons_self c []
      | cons y ys =>
          rw [List.getLast?_cons_cons] at h
          exact List.mem_cons_of_mem c (ih x h)

lemma joinNl_ne_nil {lines : List (List Char)} (h0 : lines ≠ [])
    (h1 : ∀ l ∈ lines, l ≠ []) : joinNl lines ≠ [] := by
  cases lines with
  | nil => cases h0 rfl
  | cons l ls =>
      cases ls with
      | nil => exact h1 l (List.mem_cons_self l [])
      | cons y ys =>
          rw [show joinNl (l :: y :: ys) = l ++ '\n' :: joinNl (y :: ys) from rfl]
          simp

lemma joinNl_head_ne_nl {lines : List (List Char)}
    (h1 : ∀ l ∈ lines, l ≠ [] ∧ '\n' ∉ l) :
    (joinNl lines).head? ≠ some '\n' := by
  cases lines with
  | nil => simp [joinNl]
  | cons l ls =>
      have hl := h1 l (List.mem_cons_self l ls)
      obtain ⟨c, l', rfl⟩ : ∃ c l', l = c :: l' := by
        cases l with
        | nil => cases hl.1 rfl
        | cons c l' => exact ⟨c, l', rfl⟩
      have hc : c ≠ '\n' := fun e => hl.2 (e ▸ List.mem_cons_self c l')
      cases ls with
      | nil =>
          show ((c :: l') : List Char).head? ≠ some '\n'
          simpa using hc
      | cons y ys =>
          rw [show joinNl ((c :: l') :: y :: ys) =
            (c :: l') ++ '\n' :: joinNl (y :: ys) from rfl]
          simpa using hc

lemma joinNl_last_ne_nl : ∀ {lines : List (List Char)},
    (∀ l ∈ lines, l ≠ [] ∧ '\n' ∉ l) → (joinNl lines).getLast? ≠ some '\n' := by
  intro lines
  induction lines with
  | nil => intro _; simp [joinNl]
  | cons l ls ih =>
      intro h1
      cases ls with
      | nil =>
          intro hcontra
          exact (h1 l (List.mem_cons_self l [])).2
            (mem_of_getLastSome l '\n' hcontra)
      | cons y ys =>
          rw [show joinNl (l :: y :: ys) = l ++ '\n' :: joinNl (y :: ys) from rfl]
          rw [List.getLast?_append_of_ne_nil l (by simp)]
          have hyne : joinNl (y :: ys) ≠ [] :=
            joinNl_ne_nil (by simp)
              (fun x hx => (h1 x (List.mem_cons_of_mem l hx)).1)
          obtain ⟨z, zs, hz⟩ : ∃ z zs, joinNl (y :: ys) = z :: zs := by
            cases hj : joinNl (y :: ys) with
            | nil => cases hyne hj
            | cons z zs => exact ⟨z, zs, rfl⟩
          rw [hz, List.getLast?_cons_cons, ← hz]
          exact ih (fun x hx => h1 x (List.mem_cons_of_mem l hx))

lemma noDouble_of_no_nl : ∀ {l : List Char}, '\n' ∉ l → noDouble l := by
  intro l
  induction l with
  | nil => intro _; exact List.chain'_nil
  | cons c r ih =>
      intro h
      rw [noDouble, List.chain'_cons']
      refine ⟨?_, ih (fun hm => h (List.mem_cons_of_mem c hm))⟩
      intro y _ hcontra
      exact h (hcontra.1 ▸ List.mem_cons_self c r)

lemma joinNl_noDouble : ∀ {lines : List (List Char)},
    (∀ l ∈ lines, l ≠ [] ∧ '\n' ∉ l) → noDouble (joinNl lines) := by
  intro lines
  induction lines with
  | nil => intro _; exact List.chain'_nil
  | cons l ls ih =>
      intro h1
      cases ls with
      | nil => exact noDouble_of_no_nl (h1 l (List.mem_cons_self l [])).2
      | cons y ys =>
          rw [show joinNl (l :: y :: ys) = l ++ '\n' :: joinNl (y :: ys) from rfl]
          rw [noDouble, List.chain'_append]
          refine ⟨noDouble_of_no_nl (h1 l (List.mem_cons_self l (y :: ys))).2, ?_, ?_⟩
          · rw [List.chain'_cons']
            refine ⟨?_, ih (fun x hx => h1 x (List.mem_cons_of_mem l hx))⟩
            intro z hz hcontra
            exact joinNl_head_ne_nl (fun x hx => h1 x (List.mem_cons_of_mem l hx))
              (by rw [Option.mem_def] at hz; rw [hz, hcontra.2])
          · intro x hx z hz hcontra
            rw [Option.mem_def] at hx
            exact (h1 l (List.mem_cons_self l (y :: ys))).2
              (hcontra.1 ▸ mem_of_getLastSome l x hx)

lemma stripHeader_header {c : Char} (hc : jsWhitespace c = false) (w : List Char) :
    stripHeader (("WEBVTT\n\n" : String).data ++ c :: w) = c :: w := by
  have hcn : c ≠ '\n' := by
    intro e
    rw [e] at hc
    exact absurd hc (by decide)
  have hcr : c ≠ '\r' := by
    intro e
    rw [e] at hc
    exact absurd hc (by decide)
  have hs : ("WEBVTT\n\n" : String).data ++ c :: w =
      ("WEBVTT" : String).data ++ ('\n' :: '\n' :: c :: w) := by
    rw [show ("WEBVTT\n\n" : String).data =
      ("WEBVTT" : String).data ++ ['\n', '\n'] from by decide]
    simp
  have hlen6 : ("WEBVTT" : String).data.length = 6 := by decide
  have htake : (("WEBVTT" : String).data ++ ('\n' :: '\n' :: c :: w)).take 6 =
      ("WEBVTT" : String).data := by
    conv_lhs => rw [← hlen6]
    exact List.take_left _ _
  have hdrop : (("WEBVTT" : String).data ++ ('\n' :: '\n' :: c :: w)).drop 6 =
      '\n' :: '\n' :: c :: w := by
    conv_lhs => rw [← hlen6]
    exact List.drop_left _ _
  have htw : (('\n' :: '\n' :: c :: w).takeWhile jsWhitespace).length = 2 := by
    rw [List.takeWhile_cons_of_pos (by decide), List.takeWhile_cons_of_pos (by decide),
      List.takeWhile_cons_of_neg (by simp [hc])]
    rfl
  have hu2 : unitStarts (c :: w) = false := by
    cases w with
    | nil => simp [unitStarts, hcn]
    | cons y ys => simp [unitStarts, hcn, hcr]
  have hnrw : newlineRun (c :: w) = 0 := by
    cases w with
    | nil => simp [newlineRun, hcn]
    | cons y ys =>
        rw [show newlineRun (c :: y :: ys) =
          if c = '\r' ∧ y = '\n' then 2 + newlineRun ys
          else if c = '\n' then 1 + newlineRun (y :: ys) else 0 from rfl]
        rw [if_neg (fun hh => hcr hh.1), if_neg hcn]
  have hfk : findK ('\n' :: '\n' :: c :: w) 2 = some 1 := by
    rw [show findK ('\n' :: '\n' :: c :: w) 2 =
      if unitStarts (('\n' :: '\n' :: c :: w).drop 2) then some 2
      else findK ('\n' :: '\n' :: c :: w) 1 from rfl]
    rw [show ('\n' :: '\n' :: c :: w).drop 2 = c :: w from rfl, hu2]
    rw [if_neg (by simp)]
    rw [show findK ('\n' :: '\n' :: c :: w) 1 =
      if unitStarts (('\n' :: '\n' :: c :: w).drop 1) then some 1
      else findK ('\n' :: '\n' :: c :: w) 0 from rfl]
    rw [show ('\n' :: '\n' :: c :: w).drop 1 = '\n' :: c :: w from rfl]
    rw [if_pos (by simp [unitStarts])]
  have hnr : newlineRun ('\n' :: c :: w) = 1 := by
    rw [show newlineRun ('\n' :: c :: w) =
      if ('\n' : Char) = '\r' ∧ c = '\n' then 2 + newlineRun w
      else if ('\n' : Char) = '\n' then 1 + newlineRun (c :: w) else 0 from rfl]
    rw [if_neg (fun hh => absurd hh.1 (by decide)), if_pos rfl, hnrw]
  have hmatch : headerMatchLen (("WEBVTT" : String).data ++ ('\n' :: '\n' :: c :: w)) =
      some 8 := by
    unfold headerMatchLen
    rw [htake, if_pos rfl, hdrop, htw, hfk]
    show some (6 + 1 + newlineRun (('\n' :: '\n' :: c :: w).drop 1)) = some 8
    rw [show ('\n' :: '\n' :: c :: w).drop 1 = '\n' :: c :: w from rfl, hnr]
  rw [hs]
  unfold stripHeader
  rw [hmatch]
  show (("WEBVTT" : String).data ++ ('\n' :: '\n' :: c :: w)).drop 8 = c :: w
  rw [show ("WEBVTT" : String).data ++ ('\n' :: '\n' :: c :: w) =
    (("WEBVTT" : String).data ++ ['\n', '\n']) ++ c :: w from by simp]
  rw [show (8 : Nat) = (("WEBVTT" : String).data ++ ['\n', '\n']).length from by decide]
  exact List.drop_left _ _

/-- Claim C5: converting a well-formed two-cue input with a leading
header and re-splitting on blank-line separators yields exactly the two
processed cues; each contains a time-range line whose dots have all been
rewritten to commas, and no block contains the header line. -/
theorem claim5_two_cue_shape
    (c1 c2 : List (List Char))
    (h1ne : c1 ≠ []) (h2ne : c2 ≠ [])
    (h1l : ∀ l ∈ c1, l ≠ [] ∧ '\n' ∉ l)
    (h2l : ∀ l ∈ c2, l ≠ [] ∧ '\n' ∉ l)
    (h1a : (c1.any (fun l => hasArrow l)) = true)
    (h2a : (c2.any (fun l => hasArrow l)) = true)
    (h1w : ∀ l ∈ c1, l ≠ ("WEBVTT" : String).data)
    (h2w : ∀ l ∈ c2, l ≠ ("WEBVTT" : String).data)
    (hhead : ∀ ch, (joinNl c1).head? = some ch → jsWhitespace ch = false) :
    splitBlocks (vttToSrt (String.mk (("WEBVTT\n\n" : String).data ++
        (joinNl c1 ++ '\n' :: '\n' :: joinNl c2)))).data =
      [processBlock (joinNl c1), processBlock (joinNl c2)] ∧
    (∀ p ∈ [processBlock (joinNl c1), processBlock (joinNl c2)],
      (∃ l ∈ splitNl p, hasArrow l = true ∧ '.' ∉ l) ∧
      ∀ l ∈ splitNl p, l ≠ ("WEBVTT" : String).data) := by
  have hb1ne : joinNl c1 ≠ [] := joinNl_ne_nil h1ne (fun l hl => (h1l l hl).1)
  have hb2ne : joinNl c2 ≠ [] := joinNl_ne_nil h2ne (fun l hl => (h2l l hl).1)
  obtain ⟨ch, w1, hch⟩ : ∃ ch w1, joinNl c1 = ch :: w1 := by
    cases hj : joinNl c1 with
    | nil => cases hb1ne hj
    | cons ch w1 => exact ⟨ch, w1, rfl⟩
  have hws : jsWhitespace ch = false := hhead ch (by rw [hch]; rfl)
  have hne : String.mk (("WEBVTT\n\n" : String).data ++
      (joinNl c1 ++ '\n' :: '\n' :: joinNl c2)) ≠ "" := by
    intro he
    have hd : ("WEBVTT\n\n" : String).data ++
        (joinNl c1 ++ '\n' :: '\n' :: joinNl c2) = [] := congrArg String.data he
    rw [List.append_eq_nil] at hd
    exact absurd hd.1 (by decide)
  have hstrip : stripHeader (String.mk (("WEBVTT\n\n" : String).data ++
      (joinNl c1 ++ '\n' :: '\n' :: joinNl c2))).data =
      joinNl c1 ++ '\n' :: '\n' :: joinNl c2 := by
    show stripHeader (("WEBVTT\n\n" : String).data ++
      (joinNl c1 ++ '\n' :: '\n' :: joinNl c2)) =
      joinNl c1 ++ '\n' :: '\n' :: joinNl c2
    rw [hch, List.cons_append]
    exact stripHeader_header hws _
  have hsplitlines1 : splitNl (joinNl c1) = c1 :=
    splitNl_joinNl c1 h1ne (fun l hl => (h1l l hl).2)
  have hsplitlines2 : splitNl (joinNl c2) = c2 :=
    splitNl_joinNl c2 h2ne (fun l hl => (h2l l hl).2)
  have hsome1 : ∃ i, findTimeIdx (splitNl (joinNl c1)) = some i := by
    rw [hsplitlines1]
    cases hf : findTimeIdx c1 with
    | some i => exact ⟨i, rfl⟩
    | none =>
        obtain ⟨l, hl, hp⟩ := List.any_eq_true.mp h1a
        rw [(findTimeIdx_none_iff _).mp hf l hl] at hp
        cases hp
  have hsome2 : ∃ i, findTimeIdx (splitNl (joinNl c2)) = some i := by
    rw [hsplitlines2]
    cases hf : findTimeIdx c2 with
    | some i => exact ⟨i, rfl⟩
    | none =>
        obtain ⟨l, hl, hp⟩ := List.any_eq_true.mp h2a
        rw [(findTimeIdx_none_iff _).mp hf l hl] at hp
        cases hp
  obtain ⟨i1, hi1⟩ := hsome1
  obtain ⟨i2, hi2⟩ := hsome2
  have hblocks : splitBlocks (joinNl c1 ++ '\n' :: '\n' :: joinNl c2) =
      [joinNl c1, joinNl c2] := by
    have hsj := splitBlocks_joinBlocks [joinNl c1, joinNl c2] (by simp)
      (by
        intro b hb
        rcases List.mem_cons.mp hb with rfl | hb
        · exact ⟨joinNl_noDouble h1l, hb1ne⟩
        · rw [List.mem_singleton] at hb
          subst hb
          exact ⟨joinNl_noDouble h2l, hb2ne⟩)
      (by
        intro b hb
        simp only [List.tail_cons, List.mem_singleton] at hb
        subst hb
        exact joinNl_head_ne_nl h2l)
      (by
        intro b hb
        rw [show ([joinNl c1, joinNl c2] : List (List Char)).dropLast =
          [joinNl c1] from rfl, List.mem_singleton] at hb
        subst hb
        exact joinNl_last_ne_nl h1l)
    rw [show joinBlocks [joinNl c1, joinNl c2] =
      joinNl c1 ++ '\n' :: '\n' :: joinNl c2 from rfl] at hsj
    exact hsj
  have hgt1 : '>' ∈ processBlock (joinNl c1) := gt_mem_processBlock hi1
  have hgt2 : '>' ∈ processBlock (joinNl c2) := gt_mem_processBlock hi2
  have hkeep : ∀ b : List Char, '>' ∈ b → (!(trimChars b).isEmpty) = true := by
    intro b hb
    have hne' := trimChars_ne_nil_of_mem hb (by decide)
    cases hh : (trimChars b).isEmpty with
    | false => rfl
    | true => exact absurd (List.isEmpty_iff.mp hh) hne'
  have hout : vttToSrt (String.mk (("WEBVTT\n\n" : String).data ++
      (joinNl c1 ++ '\n' :: '\n' :: joinNl c2))) =
      String.mk (joinBlocks [processBlock (joinNl c1), processBlock (joinNl c2)]) := by
    rw [vttToSrt_eq_of_ne hne, hstrip, hblocks]
    rw [List.map_cons, List.map_cons, List.map_nil]
    rw [List.filter_cons, if_pos (hkeep _ hgt1), List.filter_cons,
      if_pos (hkeep _ hgt2), List.filter_nil]
  -- properties of the two processed blocks, via the newline skeleton
  have hsm1 : sameNl (joinNl c1) (processBlock (joinNl c1)) := sameNl_processBlock hi1
  have hsm2 : sameNl (joinNl c2) (processBlock (joinNl c2)) := sameNl_processBlock hi2
  have hresplit : splitBlocks (joinBlocks
      [processBlock (joinNl c1), processBlock (joinNl c2)]) =
      [processBlock (joinNl c1), processBlock (joinNl c2)] := by
    apply splitBlocks_joinBlocks _ (by simp)
    · intro b hb
      rcases List.mem_cons.mp hb with rfl | hb
      · exact ⟨sameNl_noDouble hsm1 (joinNl_noDouble h1l), List.ne_nil_of_mem hgt1⟩
      · rw [List.mem_singleton] at hb
        subst hb
        exact ⟨sameNl_noDouble hsm2 (joinNl_noDouble h2l), List.ne_nil_of_mem hgt2⟩
    · intro b hb
      simp only [List.tail_cons, List.mem_singleton] at hb
      subst hb
      intro hcontra
      exact joinNl_head_ne_nl h2l (sameNl_head hsm2 hcontra)
    · intro b hb
      rw [show ([processBlock (joinNl c1), processBlock (joinNl c2)] :
          List (List Char)).dropLast = [processBlock (joinNl c1)] from rfl,
        List.mem_singleton] at hb
      subst hb
      intro hcontra
      exact joinNl_last_ne_nl h1l (sameNl_last hsm1 hcontra)
  refine ⟨?_, ?_⟩
  · rw [hout]
    exact hresplit
  · have hwebvttnocomma : ∀ x ∈ ("WEBVTT" : String).data, x ≠ ',' := by decide
    have hperblock : ∀ (c : List (List Char)) (i : Nat),
        c ≠ [] → (∀ l ∈ c, l ≠ [] ∧ '\n' ∉ l) →
        (∀ l ∈ c, l ≠ ("WEBVTT" : String).data) →
        findTimeIdx (splitNl (joinNl c)) = some i →
        splitNl (joinNl c) = c →
        (∃ l ∈ splitNl (processBlock (joinNl c)), hasArrow l = true ∧ '.' ∉ l) ∧
        ∀ l ∈ splitNl (processBlock (joinNl c)), l ≠ ("WEBVTT" : String).data := by
      intro c i hcne hcl hcw hi hsplitc
      obtain ⟨hlt, harr, _⟩ := findTimeIdx_some_spec _ _ hi
      rw [hsplitc] at hlt harr
      have hpb : processBlock (joinNl c) =
          joinNl (c.set i (dotsToCommas (c.getD i []))) := by
        rw [processBlock_eq_of_some hi, hsplitc]
      have hsetl : ∀ l ∈ c.set i (dotsToCommas (c.getD i [])), l ≠ [] ∧ '\n' ∉ l := by
        intro l hl
        rcases mem_set_cases _ _ _ _ hl with hl | rfl
        · exact hcl l hl
        · constructor
          · intro he
            have := (hcl _ (getD_mem_of_lt _ _ hlt)).1
            unfold dotsToCommas at he
            rw [List.map_eq_nil_iff] at he
            exact this he
          · exact dotsToCommas_no_nl (hcl _ (getD_mem_of_lt _ _ hlt)).2
      have hsetne : c.set i (dotsToCommas (c.getD i [])) ≠ [] := by
        intro he
        apply hcne
        cases hcc : c with
        | nil => rfl
        | cons x xs =>
            rw [hcc] at he
            cases i <;> simp [List.set] at he
      have hsplitpb : splitNl (processBlock (joinNl c)) =
          c.set i (dotsToCommas (c.getD i [])) := by
        rw [hpb]
        exact splitNl_joinNl _ hsetne (fun l hl => (hsetl l hl).2)
      rw [hsplitpb]
      refine ⟨⟨dotsToCommas (c.getD i []), mem_set_of_lt _ _ _ hlt, ?_, ?_⟩, ?_⟩
      · rw [hasArrow_dots]
        exact harr
      · exact dots_no_dot _
      · intro l hl
        rcases mem_set_cases _ _ _ _ hl with hl | rfl
        · exact hcw l hl
        · intro hcontra
          have := dots_eq_of_no_comma hcontra hwebvttnocomma
          exact hcw _ (getD_mem_of_lt _ _ hlt) this
    intro p hp
    rcases List.mem_cons.mp hp with rfl | hp
    · exact hperblock c1 i1 h1ne h1l h1w hi1 hsplitlines1
    · rw [List.mem_singleton] at hp
      subst hp
      exact hperblock c2 i2 h2ne h2l h2w hi2 hsplitlines2

/-- Witness for C5 on two concrete cues. -/
theorem claim5_two_cue_shape_witness :
    splitBlocks (vttToSrt (String.mk (("WEBVTT\n\n" : String).data ++
        (joinNl [("00:00:00.000 --> 00:00:04.000" : String).data,
                 ("Hello" : String).data] ++ '\n' :: '\n' ::
          joinNl [("00:00:04.500 --> 00:00:06.000" : String).data,
                  ("World" : String).data])))).data =
      [processBlock (joinNl [("00:00:00.000 --> 00:00:04.000" : String).data,
          ("Hello" : String).data]),
       processBlock (joinNl [("00:00:04.500 --> 00:00:06.000" : String).data,
          ("World" : String).data])] :=
  (claim5_two_cue_shape
    [("00:00:00.000 --> 00:00:04.000" : String).data, ("Hello" : String).data]
    [("00:00:04.500 --> 00:00:06.000" : String).data, ("World" : String).data]
    (by decide) (by decide) (by decide) (by decide) (by decide) (by decide)
    (by decide) (by decide) (by decide)).1

/-- Witness for C10-amended on a concrete headerless cue. -/
theorem claim10_idempotent_amended_witness :
    stripHeader (vttToSrt "00:01.000 --> 00:02.000\nhi").data =
      (vttToSrt "00:01.000 --> 00:02.000\nhi").data ∧
    vttToSrt (vttToSrt "00:01.000 --> 00:02.000\nhi") =
      vttToSrt "00:01.000 --> 00:02.000\nhi" :=
  ⟨by decide, claim10_idempotent_amended "00:01.000 --> 00:02.000\nhi" (by decide)⟩

end AutoGenSrt
